import Mathlib

/-!
Verification of the AutoStrike attack execution and scheduling engine.

The Go sources are shallowly embedded: entity records become Lean
structures, repository-backed state becomes an explicit `Store` that is
threaded through each operation, and fallible repository calls are
modelled with explicit success flags where a behaviour under failure is
at stake.  Time is modelled as a natural number of minutes (UTC), and
the wall clock (`time.Now()`) is passed explicitly.  Generated UUIDs are
passed explicitly as identifier supplies.
-/

namespace AutoStrike

/-- Time instants, as minutes since 2024-01-01T00:00:00 UTC. -/
abbrev Time := Nat

/-- Status of an execution result (string constants of the entity package). -/
inductive ResultStatus
  | pending
  | running
  | blocked
  | detected
  | successful
  | skipped
deriving DecidableEq, Repr

/-- Status of an execution (string constants of the entity package;
`ExecutionPending` exists in the entity package, as witnessed by
`CancelExecution` in the execution service). -/
inductive ExecutionStatus
  | pending
  | running
  | completed
  | cancelled
deriving DecidableEq, Repr

/-- Status of an agent. -/
inductive AgentStatus
  | online
  | offline
deriving DecidableEq, Repr

/-- A per-platform executor of a technique (command, cleanup, timeout),
as used by the orchestrator and the execution service. -/
structure ExecutorSpec where
  platform : String
  kind : String
  command : String
  cleanup : String
  timeout : Int
deriving DecidableEq, Repr

/-- An attack technique, with its per-platform executors and safety flag. -/
structure Technique where
  id : String
  isSafe : Bool
  executors : List ExecutorSpec
deriving DecidableEq, Repr

/-- A remote agent identified by its paw. -/
structure Agent where
  paw : String
  platform : String
  executors : List String
  status : AgentStatus
deriving DecidableEq, Repr

/-- A phase of a scenario: a name and an ordered list of technique ids. -/
structure Phase where
  name : String
  techniques : List String
deriving DecidableEq, Repr

/-- A scenario: an ordered list of phases. -/
structure Scenario where
  id : String
  phases : List Phase
deriving DecidableEq, Repr

/-- Security score.  `overall` is kept as an exact rational. -/
structure SecurityScore where
  overall : ℚ
  blocked : Nat
  detected : Nat
  successful : Nat
  total : Nat
deriving DecidableEq, Repr

/-- An execution of a scenario against a set of agents. -/
structure Execution where
  id : String
  scenarioId : String
  agentPaws : List String
  status : ExecutionStatus
  startedAt : Time
  completedAt : Option Time
  safeMode : Bool
  score : Option SecurityScore
deriving DecidableEq, Repr

/-- A per-technique-per-agent result row of an execution. -/
structure ExecutionResult where
  id : String
  executionId : String
  techniqueId : String
  agentPaw : String
  status : ResultStatus
  output : String
  exitCode : Int
  detected : Bool
  startedAt : Time
  completedAt : Option Time
deriving DecidableEq, Repr

/-- Typed error taxonomy of the engine (Go returns wrapped string errors;
only the case is modelled, not the message text). -/
inductive EngineError
  | notFound
  | invalidState
  | noExecutableTasks
  | persistenceFailure
deriving DecidableEq, Repr

/-- Whether a result status is terminal (has left Pending/Running). -/
def ResultStatus.isTerminal : ResultStatus → Bool
  | .pending => false
  | .running => false
  | _ => true

/-- Modelled from the spec: the ScoreCalculator entity file is not in the
sources (only its caller `CompleteExecution` is).  Per spec §4.4 it
partitions results by terminal category excluding Skipped from the
denominator; Blocked credits 1.0, Detected 0.5, Successful 0; overall is
100 * credits / total, and 0 when total = 0. -/
def CalculateScore (results : List ExecutionResult) : SecurityScore :=
  let blocked := (results.filter (fun r => r.status == .blocked)).length
  let detected := (results.filter (fun r => r.status == .detected)).length
  let successful := (results.filter (fun r => r.status == .successful)).length
  let total := (results.filter (fun r => !(r.status == .skipped))).length
  let overall : ℚ :=
    if total = 0 then 0
    else 100 * ((blocked : ℚ) + (detected : ℚ) / 2) / (total : ℚ)
  { overall := overall, blocked := blocked, detected := detected,
    successful := successful, total := total }

/-- The persistent store backing the result repository: execution rows
and result rows. -/
structure Store where
  executions : List Execution
  results : List ExecutionResult
deriving DecidableEq, Repr

/-- FindExecutionByID of the result repository. -/
def Store.findExecution (st : Store) (id : String) : Option Execution :=
  st.executions.find? (fun e => e.id == id)

/-- FindResultByID of the result repository. -/
def Store.findResult (st : Store) (id : String) : Option ExecutionResult :=
  st.results.find? (fun r => r.id == id)

/-- FindResultsByExecution of the result repository. -/
def Store.resultsOf (st : Store) (executionId : String) : List ExecutionResult :=
  st.results.filter (fun r => r.executionId == executionId)

/-- UpdateResult of the result repository: persists the row with the
matching id. -/
def Store.updateResult (st : Store) (r : ExecutionResult) : Store :=
  { st with results := st.results.map (fun x => if x.id == r.id then r else x) }

/-- UpdateExecution of the result repository. -/
def Store.updateExecution (st : Store) (e : Execution) : Store :=
  { st with executions := st.executions.map (fun x => if x.id == e.id then e else x) }

/-- CreateExecution of the result repository. -/
def Store.createExecution (st : Store) (e : Execution) : Store :=
  { st with executions := st.executions ++ [e] }

/-- CreateResult of the result repository. -/
def Store.createResult (st : Store) (r : ExecutionResult) : Store :=
  { st with results := st.results ++ [r] }

/-- Status of the execution with the given id, if present. -/
def Store.executionStatus (st : Store) (id : String) : Option ExecutionStatus :=
  (st.findExecution id).map (fun e => e.status)

/-- CompleteExecution of the execution service: loads the execution and
its results, computes the score, and marks the execution Completed with
the score and a completedAt timestamp.  There is no status guard. -/
def CompleteExecution (st : Store) (executionID : String) (now : Time) :
    Except EngineError Unit × Store :=
  match st.findExecution executionID with
  | none => (.error .notFound, st)
  | some execution =>
    let results := st.resultsOf executionID
    let score := CalculateScore results
    let execution' := { execution with
      score := some score
      status := .completed
      completedAt := some now }
    (.ok (), st.updateExecution execution')

/-- checkAndCompleteExecution of the execution service.  `loadOk` models
whether FindResultsByExecution succeeds; on failure the error is
swallowed (the result update is not failed). -/
def checkAndCompleteExecution (st : Store) (executionID : String) (now : Time)
    (loadOk : Bool) : Except EngineError Unit × Store :=
  if !loadOk then (.ok (), st)
  else
    let results := st.resultsOf executionID
    let allDone := results.all (fun r => !(r.status == .pending || r.status == .running))
    if allDone && results.length > 0 then
      CompleteExecution st executionID now
    else
      (.ok (), st)

/-- UpdateResultByID of the execution service: loads the result, sets
status, output, exitCode and (unconditionally) completedAt, persists it,
then runs the completion check. -/
def UpdateResultByID (st : Store) (resultID : String) (status : ResultStatus)
    (output : String) (exitCode : Int) (now : Time) (loadOk : Bool) :
    Except EngineError Unit × Store :=
  match st.findResult resultID with
  | none => (.error .notFound, st)
  | some result =>
    let executionID := result.executionId
    let result' := { result with
      status := status
      output := output
      exitCode := exitCode
      completedAt := some now }
    let st1 := st.updateResult result'
    checkAndCompleteExecution st1 executionID now loadOk

/-- The Skipped transition applied by CancelExecution to a still
Pending/Running result. -/
def skipResult (now : Time) (r : ExecutionResult) : ExecutionResult :=
  { r with status := .skipped, completedAt := some now }

/-- The per-result loop of CancelExecution: every result still Pending or
Running is transitioned to Skipped with completedAt = now and persisted;
`persistOk` models whether the UpdateResult call for a given result id
succeeds, and a failed persist aborts the loop with the store as written
so far. -/
def cancelLoop (persistOk : String → Bool) (now : Time) :
    List ExecutionResult → Store → Except EngineError Unit × Store
  | [], st => (.ok (), st)
  | result :: rest, st =>
    if result.status == .pending || result.status == .running then
      let result' := skipResult now result
      if persistOk result.id then
        cancelLoop persistOk now rest (st.updateResult result')
      else
        (.error .persistenceFailure, st)
    else
      cancelLoop persistOk now rest st

/-- The cumulative effect on one stored result row of running the cancel
loop over a given snapshot list. -/
def updFold (now : Time) (todo : List ExecutionResult)
    (x : ExecutionResult) : ExecutionResult :=
  todo.foldl
    (fun y r =>
      if ((r.status == .pending || r.status == .running) && y.id == r.id) = true
      then skipResult now r else y) x

/-- CancelExecution of the execution service: only a Running or Pending
execution may be cancelled; all Pending/Running results are skipped, then
the execution is marked Cancelled. -/
def CancelExecution (st : Store) (executionID : String) (now : Time)
    (persistOk : String → Bool) : Except EngineError Unit × Store :=
  match st.findExecution executionID with
  | none => (.error .notFound, st)
  | some execution =>
    if !(execution.status == .running) && !(execution.status == .pending) then
      (.error .invalidState, st)
    else
      let results := st.resultsOf executionID
      match cancelLoop persistOk now results st with
      | (.error e, st1) => (.error e, st1)
      | (.ok (), st1) =>
        let execution' := { execution with
          status := .cancelled
          completedAt := some now }
        (.ok (), st1.updateExecution execution')

/-- Modelled from the spec: `Agent.IsCompatible` lives in the entity
package, which is not in the sources (only its callers are).  Per spec
§3, compatibility of an agent with a technique is determined by platform
match (executor availability is re-checked separately by the planner via
`GetExecutorForPlatform`). -/
def Agent.IsCompatible (a : Agent) (t : Technique) : Bool :=
  t.executors.any (fun e => e.platform == a.platform)

/-- Modelled from the spec: `Technique.GetExecutorForPlatform` lives in
the entity package, which is not in the sources.  Per spec §6 it resolves
the platform-specific executor of the technique, preferring an executor
whose kind is among the agent-provided overrides. -/
def Technique.GetExecutorForPlatform (t : Technique) (platform : String)
    (overrides : List String) : Option ExecutorSpec :=
  match t.executors.find? (fun e => e.platform == platform && overrides.contains e.kind) with
  | some e => some e
  | none => t.executors.find? (fun e => e.platform == platform)

/-- A single task in an execution plan. -/
structure PlannedTask where
  techniqueId : String
  agentPaw : String
  phase : String
  order : Nat
  command : String
  cleanup : String
  timeout : Int
deriving DecidableEq, Repr

/-- An execution plan (the generated UUID id is omitted from the model). -/
structure ExecutionPlan where
  tasks : List PlannedTask
deriving DecidableEq, Repr

/-- The technique catalog: FindByID of the technique repository.  A
lookup that fails returns none. -/
def findTechnique (catalog : List Technique) (id : String) : Option Technique :=
  catalog.find? (fun t => t.id == id)

/-- Inner loop of PlanExecution: iterate the target agents for one
technique, appending one task per compatible agent with a resolvable
executor, threading the task list and the global order counter. -/
def planAgents (technique : Technique) (techID : String) (phaseName : String) :
    List Agent → List PlannedTask → Nat → List PlannedTask × Nat
  | [], tasks, order => (tasks, order)
  | agent :: rest, tasks, order =>
    if !(agent.IsCompatible technique) then
      planAgents technique techID phaseName rest tasks order
    else
      match technique.GetExecutorForPlatform agent.platform agent.executors with
      | none => planAgents technique techID phaseName rest tasks order
      | some executor =>
        planAgents technique techID phaseName rest
          (tasks ++ [{ techniqueId := techID
                       agentPaw := agent.paw
                       phase := phaseName
                       order := order
                       command := executor.command
                       cleanup := executor.cleanup
                       timeout := executor.timeout }])
          (order + 1)

/-- Middle loop of PlanExecution: iterate the technique ids of one phase.
A technique id not found in the catalog is logged and skipped; an unsafe
technique is skipped in safe mode. -/
def planTechniques (catalog : List Technique) (targetAgents : List Agent)
    (safeMode : Bool) (phaseName : String) :
    List String → List PlannedTask → Nat → List PlannedTask × Nat
  | [], tasks, order => (tasks, order)
  | techID :: rest, tasks, order =>
    match findTechnique catalog techID with
    | none => planTechniques catalog targetAgents safeMode phaseName rest tasks order
    | some technique =>
      if safeMode && !technique.isSafe then
        planTechniques catalog targetAgents safeMode phaseName rest tasks order
      else
        let (tasks', order') := planAgents technique techID phaseName targetAgents tasks order
        planTechniques catalog targetAgents safeMode phaseName rest tasks' order'

/-- Outer loop of PlanExecution: iterate the phases in declared order. -/
def planPhases (catalog : List Technique) (targetAgents : List Agent)
    (safeMode : Bool) : List Phase → List PlannedTask → Nat → List PlannedTask × Nat
  | [], tasks, order => (tasks, order)
  | phase :: rest, tasks, order =>
    let (tasks', order') :=
      planTechniques catalog targetAgents safeMode phase.name phase.techniques tasks order
    planPhases catalog targetAgents safeMode rest tasks' order'

/-- PlanExecution of the attack orchestrator: walk phases, techniques and
agents in declared order, appending one task per compatible pair with the
next value of the global order counter; fail with NoExecutableTasks iff
the plan ends up empty. -/
def PlanExecution (catalog : List Technique) (scenario : Scenario)
    (targetAgents : List Agent) (safeMode : Bool) :
    Except EngineError ExecutionPlan :=
  let (tasks, _) := planPhases catalog targetAgents safeMode scenario.phases [] 0
  if tasks.length = 0 then
    .error .noExecutableTasks
  else
    .ok { tasks := tasks }

/-- The pairs contributed by one technique over the target agents, in
agent order: the compatible agents with a resolvable executor.  Used to
compare `PlanExecution` against the spec wording (refinement). -/
def agentPairs (technique : Technique) (techID phaseName : String)
    (agents : List Agent) : List (String × String × Agent × ExecutorSpec) :=
  agents.filterMap (fun agent =>
    if agent.IsCompatible technique then
      (technique.GetExecutorForPlatform agent.platform agent.executors).map
        (fun executor => (techID, phaseName, agent, executor))
    else none)

/-- The pairs contributed by the technique ids of one phase, in declared
order: a technique id not found in the catalog contributes nothing, as
does an unsafe technique in safe mode. -/
def techPairs (catalog : List Technique) (agents : List Agent)
    (safeMode : Bool) (phaseName : String) (techIDs : List String) :
    List (String × String × Agent × ExecutorSpec) :=
  techIDs.flatMap (fun techID =>
    match findTechnique catalog techID with
    | none => []
    | some technique =>
      if safeMode && !technique.isSafe then []
      else agentPairs technique techID phaseName agents)

/-- The pairs contributed by a list of phases, in declared order. -/
def phasePairs (catalog : List Technique) (agents : List Agent)
    (safeMode : Bool) (phases : List Phase) :
    List (String × String × Agent × ExecutorSpec) :=
  phases.flatMap (fun phase =>
    techPairs catalog agents safeMode phase.name phase.techniques)

/-- Specification-side description of the planned pairs, following the
spec wording for the planner: phases in declared order, techniques in
declared order within a phase, agents in given order within a technique,
keeping exactly the compatible pairs of a catalogued (and, in safe mode,
safe) technique and an agent with a resolvable executor. -/
def specPlannedPairs (catalog : List Technique) (scenario : Scenario)
    (targetAgents : List Agent) (safeMode : Bool) :
    List (String × String × Agent × ExecutorSpec) :=
  phasePairs catalog targetAgents safeMode scenario.phases

/-- The planned task built from one pair, with the given order value. -/
def mkPlanned (n : Nat) (p : String × String × Agent × ExecutorSpec) :
    PlannedTask :=
  { techniqueId := p.1
    agentPaw := p.2.2.1.paw
    phase := p.2.1
    order := n
    command := p.2.2.2.command
    cleanup := p.2.2.2.cleanup
    timeout := p.2.2.2.timeout }

/-- Specification-side task list from a pair list, with order values
counting up from n. -/
def specTasksFrom (n : Nat) :
    List (String × String × Agent × ExecutorSpec) → List PlannedTask
  | [] => []
  | p :: rest => mkPlanned n p :: specTasksFrom (n + 1) rest

/-- Specification-side task list: the planned pairs, each turned into a
task whose order field is its position in the list. -/
def specPlannedTasks (catalog : List Technique) (scenario : Scenario)
    (targetAgents : List Agent) (safeMode : Bool) : List PlannedTask :=
  specTasksFrom 0 (specPlannedPairs catalog scenario targetAgents safeMode)

/-- A phase with the technique ids missing from the catalog removed. -/
def prunePhase (catalog : List Technique) (phase : Phase) : Phase :=
  { name := phase.name
    techniques := phase.techniques.filter
      (fun techID => (findTechnique catalog techID).isSome) }

/-- The scenario with every technique id that is missing from the
catalog removed from its phases. -/
def pruneUnknown (catalog : List Technique) (scenario : Scenario) : Scenario :=
  { id := scenario.id
    phases := scenario.phases.map (prunePhase catalog) }

/-- Dispatch information handed to the external transport for one task. -/
structure TaskDispatchInfo where
  resultID : String
  agentPaw : String
  techniqueId : String
  command : String
  executor : String
  timeout : Int
  cleanup : String
deriving DecidableEq, Repr

/-- The execution together with the tasks to dispatch. -/
structure ExecutionWithTasks where
  execution : Execution
  tasks : List TaskDispatchInfo
deriving DecidableEq, Repr

/-- External collaborators of StartExecution: the scenario catalog, the
agent directory and the technique catalog. -/
structure Env where
  scenarios : List Scenario
  agents : List Agent
  catalog : List Technique
deriving DecidableEq, Repr

/-- FindByPaws of the agent repository: batch-load the agents whose paw
is among the requested ones. -/
def Env.findByPaws (env : Env) (paws : List String) : List Agent :=
  env.agents.filter (fun a => paws.contains a.paw)

/-- Lookup in the Go map built from the loaded agents (on a duplicate
paw the last entry wins, as with Go map insertion). -/
def pawMap (agents : List Agent) (paw : String) : Option Agent :=
  agents.reverse.find? (fun a => a.paw == paw)

/-- The validation loop of StartExecution: every requested paw must
resolve to a loaded agent that is online. -/
def validateAgents (agents : List Agent) : List String → Except EngineError Unit
  | [] => .ok ()
  | paw :: rest =>
    match pawMap agents paw with
    | none => .error .notFound
    | some agent =>
      if !(agent.status == .online) then .error .invalidState
      else validateAgents agents rest

/-- The result-creation loop of StartExecution: persist one Pending
result per planned task and collect its dispatch information, resolving
the executor kind per task (default "sh"). -/
def createResults (env : Env) (agents : List Agent) (executionID : String)
    (now : Time) (resultID : Nat → String) :
    List PlannedTask → Nat → Store → List TaskDispatchInfo → Store × List TaskDispatchInfo
  | [], _, st, tasks => (st, tasks)
  | task :: rest, i, st, tasks =>
    let result : ExecutionResult :=
      { id := resultID i
        executionId := executionID
        techniqueId := task.techniqueId
        agentPaw := task.agentPaw
        status := .pending
        output := ""
        exitCode := 0
        detected := false
        startedAt := now
        completedAt := none }
    let st1 := st.createResult result
    let executor :=
      match findTechnique env.catalog task.techniqueId with
      | none => "sh"
      | some technique =>
        match pawMap agents task.agentPaw with
        | none => "sh"
        | some agent =>
          match technique.GetExecutorForPlatform agent.platform agent.executors with
          | none => "sh"
          | some e => e.kind
    createResults env agents executionID now resultID rest (i + 1) st1
      (tasks ++ [{ resultID := result.id
                   agentPaw := task.agentPaw
                   techniqueId := task.techniqueId
                   command := task.command
                   executor := executor
                   timeout := task.timeout
                   cleanup := task.cleanup }])

/-- StartExecution of the execution service: load the scenario,
batch-load the requested agents, validate that every requested paw is a
known online agent, plan, then persist the execution row and one pending
result row per task, returning the dispatch instructions. -/
def StartExecution (env : Env) (st : Store) (scenarioID : String)
    (agentPaws : List String) (safeMode : Bool) (now : Time)
    (executionID : String) (resultID : Nat → String) :
    Except EngineError ExecutionWithTasks × Store :=
  match env.scenarios.find? (fun s => s.id == scenarioID) with
  | none => (.error .notFound, st)
  | some scenario =>
    let agents := env.findByPaws agentPaws
    match validateAgents agents agentPaws with
    | .error e => (.error e, st)
    | .ok () =>
      match PlanExecution env.catalog scenario agents safeMode with
      | .error e => (.error e, st)
      | .ok plan =>
        let execution : Execution :=
          { id := executionID
            scenarioId := scenarioID
            agentPaws := agentPaws
            status := .running
            startedAt := now
            completedAt := none
            safeMode := safeMode
            score := none }
        let st1 := st.createExecution execution
        let (st2, tasks) := createResults env agents execution.id now resultID plan.tasks 0 st1 []
        (.ok { execution := execution, tasks := tasks }, st2)

/-- Gregorian leap year. -/
def isLeap (y : Nat) : Bool :=
  (y % 4 == 0 && y % 100 != 0) || y % 400 == 0

/-- Days in a month of a given year (months are 1-based). -/
def daysInMonth (y m : Nat) : Nat :=
  if m == 2 then (if isLeap y then 29 else 28)
  else if m == 4 || m == 6 || m == 9 || m == 11 then 30
  else 31

/-- Days in a year. -/
def daysInYear (y : Nat) : Nat :=
  if isLeap y then 366 else 365

/-- Days from 2024-01-01 to the first day of year 2024 + n. -/
def daysBeforeYear : Nat → Nat
  | 0 => 0
  | n + 1 => daysBeforeYear n + daysInYear (2024 + n)

/-- Days from the first day of year y to the first day of month m. -/
def daysBeforeMonth (y : Nat) : Nat → Nat
  | 0 => 0
  | 1 => 0
  | m + 1 => daysBeforeMonth y m + daysInMonth y m

/-- Day index (days since 2024-01-01) of a calendar date. -/
def dayIndexOfYmd (y m d : Nat) : Nat :=
  daysBeforeYear (y - 2024) + daysBeforeMonth y m + (d - 1)

/-- Month and day-of-month from a day-of-year offset (fuel-bounded walk
over the months). -/
def mdOfDayOfYear (y : Nat) : Nat → Nat → Nat → Nat × Nat
  | 0, m, d => (m, d + 1)
  | fuel + 1, m, d =>
    if d < daysInMonth y m then (m, d + 1)
    else mdOfDayOfYear y fuel (m + 1) (d - daysInMonth y m)

/-- Year, month and day from a day index (fuel-bounded walk over the
years; the fuel is an upper bound, the walk stops at the right year). -/
def ymdGo : Nat → Nat → Nat → Nat × Nat × Nat
  | 0, y, d =>
    let md := mdOfDayOfYear y 11 1 d
    (y, md.1, md.2)
  | fuel + 1, y, d =>
    if d < daysInYear y then
      let md := mdOfDayOfYear y 11 1 d
      (y, md.1, md.2)
    else ymdGo fuel (y + 1) (d - daysInYear y)

/-- Calendar date of a day index. -/
def ymdOfDayIndex (d : Nat) : Nat × Nat × Nat :=
  ymdGo d 2024 d

/-- One calendar month after a time instant: increment the month with
year carry, clamping the day of month to the target month's length. -/
def addOneCalendarMonth (t : Time) : Time :=
  let dayIdx := t / 1440
  let rem := t % 1440
  let ymd := ymdOfDayIndex dayIdx
  let y := ymd.1
  let m := ymd.2.1
  let d := ymd.2.2
  let y' := if m == 12 then y + 1 else y
  let m' := if m == 12 then 1 else m + 1
  let d' := min d (daysInMonth y' m')
  dayIndexOfYmd y' m' d' * 1440 + rem

/-- Split a character list on a separator character (the result always
has at least one chunk). -/
def splitOnChar (sep : Char) : List Char → List (List Char)
  | [] => [[]]
  | c :: rest =>
    match splitOnChar sep rest with
    | [] => if c == sep then [[], []] else [[c]]
    | cur :: done =>
      if c == sep then [] :: cur :: done else (c :: cur) :: done

/-- Numeric value of a decimal digit character. -/
def digitVal (c : Char) : Option Nat :=
  if '0' ≤ c && c ≤ '9' then some (c.toNat - '0'.toNat) else none

/-- Parse a nonempty all-digit character list as a natural number. -/
def charsToNat : List Char → Nat → Option Nat
  | [], acc => some acc
  | c :: rest, acc =>
    match digitVal c with
    | some d => charsToNat rest (acc * 10 + d)
    | none => none

/-- Parse a character list as a natural number (none when empty or when
a non-digit occurs). -/
def parseNat (s : List Char) : Option Nat :=
  match s with
  | [] => none
  | _ => charsToNat s 0

/-- Parse the body of a cron field item: "*", a value, or a range. -/
def parseCronBody (lo hi : Nat) (s : List Char) : Option (Nat × Nat) :=
  if s == ['*'] then some (lo, hi)
  else
    match splitOnChar '-' s with
    | [a] =>
      match parseNat a with
      | some v => if lo ≤ v && v ≤ hi then some (v, v) else none
      | none => none
    | [a, b] =>
      match parseNat a, parseNat b with
      | some va, some vb =>
        if lo ≤ va && va ≤ vb && vb ≤ hi then some (va, vb) else none
      | _, _ => none
    | _ => none

/-- Parse one comma-separated item of a cron field, with an optional
step suffix, into its list of allowed values. -/
def parseCronItem (lo hi : Nat) (s : List Char) : Option (List Nat) :=
  match splitOnChar '/' s with
  | [body] =>
    (parseCronBody lo hi body).map (fun r => List.range' r.1 (r.2 + 1 - r.1))
  | [body, stepStr] =>
    match parseCronBody lo hi body, parseNat stepStr with
    | some r, some step =>
      if step == 0 then none
      else some ((List.range' r.1 (r.2 + 1 - r.1)).filter
        (fun v => (v - r.1) % step == 0))
    | _, _ => none
  | _ => none

/-- Parse one cron field (a comma-separated list of items). -/
def parseCronField (lo hi : Nat) (s : List Char) : Option (List Nat) :=
  (splitOnChar ',' s).foldl
    (fun acc it =>
      match acc, parseCronItem lo hi it with
      | some l, some v => some (l ++ v)
      | _, _ => none)
    (some [])

/-- A parsed 5-field cron expression: allowed minutes, hours, days of
month, months and days of week (0 = Sunday). -/
structure CronSpec where
  minute : List Nat
  hour : List Nat
  dom : List Nat
  month : List Nat
  dow : List Nat
deriving DecidableEq, Repr

/-- Parse a standard 5-field cron expression (fields separated by
whitespace runs); a syntactically invalid expression yields none. -/
def parseCron (expr : String) : Option CronSpec :=
  match (splitOnChar ' ' expr.data).filter (fun f => !f.isEmpty) with
  | [mi, h, dom, mon, dow] =>
    match parseCronField 0 59 mi, parseCronField 0 23 h, parseCronField 1 31 dom,
      parseCronField 1 12 mon, parseCronField 0 6 dow with
    | some a, some b, some c, some d, some e =>
      some { minute := a, hour := b, dom := c, month := d, dow := e }
    | _, _, _, _, _ => none
  | _ => none

/-- Whether a time instant matches a parsed cron expression
(2024-01-01 was a Monday, so the day of week of day index i is
(i + 1) % 7 with 0 = Sunday). -/
def cronMatches (c : CronSpec) (t : Time) : Bool :=
  let dayIdx := t / 1440
  let ymd := ymdOfDayIndex dayIdx
  c.minute.contains (t % 60) && c.hour.contains (t / 60 % 24) &&
    c.dom.contains ymd.2.2 && c.month.contains ymd.2.1 &&
    c.dow.contains ((dayIdx + 1) % 7)

/-- Earliest instant strictly after t matching the cron expression,
searched minute by minute up to the given fuel. -/
def searchCron (c : CronSpec) : Nat → Time → Option Time
  | 0, _ => none
  | fuel + 1, t => if cronMatches c (t + 1) then some (t + 1) else searchCron c fuel (t + 1)

/-- Search bound for the cron next-run computation (about four years of
minutes). -/
def cronSearchFuel : Nat := 1540 * 1440

/-- A recurring or one-shot schedule (frequency and status are string
typed in the source). -/
structure Schedule where
  id : String
  scenarioId : String
  agentPaw : String
  frequency : String
  cronExpr : String
  safeMode : Bool
  status : String
  nextRunAt : Option Time
  lastRunAt : Option Time
deriving DecidableEq, Repr

/-- Modelled from the spec: the Schedule entity file is not in the
sources (only its tests are).  Per spec §4.3 and the pinned unit tests:
a schedule whose status is not Active yields none; hourly/daily/weekly
add a fixed offset (one calendar day is 1440 minutes in this UTC minute
model); monthly adds one calendar month; once yields none when lastRunAt
is set, else the stored nextRunAt when set, else now; cron yields none
on an empty or invalid expression and otherwise the earliest matching
instant strictly after now; an unknown frequency yields none. -/
def Schedule.CalculateNextRun (s : Schedule) (now : Time) : Option Time :=
  if !(s.status == "active") then none
  else if s.frequency == "hourly" then some (now + 60)
  else if s.frequency == "daily" then some (now + 1440)
  else if s.frequency == "weekly" then some (now + 7 * 1440)
  else if s.frequency == "monthly" then some (addOneCalendarMonth now)
  else if s.frequency == "once" then
    match s.lastRunAt with
    | some _ => none
    | none =>
      match s.nextRunAt with
      | some t => some t
      | none => some now
  else if s.frequency == "cron" then
    if s.cronExpr == "" then none
    else
      match parseCron s.cronExpr with
      | none => none
      | some c => searchCron c cronSearchFuel now
  else none

/-! Concrete example data used by witnesses and counterexamples. -/

/-- A demo daily schedule in the Active status. -/
def dailySched : Schedule :=
  { id := "sch1", scenarioId := "s1", agentPaw := "", frequency := "daily",
    cronExpr := "", safeMode := false, status := "active",
    nextRunAt := none, lastRunAt := none }

/-- The demo schedule, paused. -/
def pausedSched : Schedule :=
  { dailySched with status := "paused" }

/-- The demo schedule, monthly. -/
def monthlySched : Schedule :=
  { dailySched with frequency := "monthly" }

/-- A one-shot schedule that has already run. -/
def onceSchedDone : Schedule :=
  { dailySched with frequency := "once", lastRunAt := some 3 }

/-- An hourly cron schedule. -/
def cronSched : Schedule :=
  { dailySched with frequency := "cron", cronExpr := "0 * * * *" }


/-- An execution row with the given status, for example stores. -/
def mkExecution (status : ExecutionStatus) : Execution :=
  { id := "e1", scenarioId := "s1", agentPaws := ["a1"], status := status,
    startedAt := 0, completedAt := some 3, safeMode := false, score := none }

/-- A result row of execution e1 with the given id and status, for
example stores. -/
def mkResult (id : String) (status : ResultStatus) : ExecutionResult :=
  { id := id, executionId := "e1", techniqueId := "T1", agentPaw := "a1",
    status := status, output := "", exitCode := 0, detected := false,
    startedAt := 0, completedAt := some 3 }

/-- A store holding one cancelled execution whose single result is
already terminal (the state left behind by a cancellation). -/
def cancelledStore : Store :=
  { executions := [mkExecution .cancelled],
    results := [mkResult "r1" .skipped] }

/-- A store holding one completed execution and its terminal result. -/
def completedStore : Store :=
  { executions := [mkExecution .completed],
    results := [mkResult "r1" .blocked] }

/-- The always-succeeding persistence schedule. -/
def alwaysOk : String → Bool := fun _ => true

/-- A freshly created (pending, not yet completed) result row of
execution e1, for example stores. -/
def freshResult (id : String) : ExecutionResult :=
  { id := id, executionId := "e1", techniqueId := "T1", agentPaw := "a1",
    status := .pending, output := "", exitCode := 0, detected := false,
    startedAt := 0, completedAt := none }

/-- A store holding one running execution with one pending result. -/
def runningStore : Store :=
  { executions := [mkExecution .running],
    results := [freshResult "r1"] }

/-- A store holding one running execution with one pending and one
terminal result. -/
def runningStore2 : Store :=
  { executions := [mkExecution .running],
    results := [mkResult "r1" .blocked, freshResult "r2"] }

/-- A store holding one execution in the Pending status with one pending
result. -/
def pendingExecStore : Store :=
  { executions := [mkExecution .pending],
    results := [freshResult "r1"] }

/-- A persistence schedule that fails exactly for result id r2. -/
def failOnR2 : String → Bool := fun id => !(id == "r2")

/-- A demo executor for the linux platform. -/
def demoExec : ExecutorSpec :=
  { platform := "linux", kind := "sh", command := "whoami", cleanup := "",
    timeout := 60 }

/-- A demo safe technique with one linux executor. -/
def demoTech : Technique :=
  { id := "T1", isSafe := true, executors := [demoExec] }

/-- A demo unsafe technique with one linux executor. -/
def demoTechUnsafe : Technique :=
  { id := "T2", isSafe := false, executors := [demoExec] }

/-- A demo phase listing the two techniques. -/
def demoPhase : Phase :=
  { name := "p1", techniques := ["T1", "T2"] }

/-- A demo scenario with a single phase. -/
def demoScenario : Scenario :=
  { id := "s1", phases := [demoPhase] }

/-- A demo online linux agent. -/
def demoAgentOn : Agent :=
  { paw := "a1", platform := "linux", executors := ["sh"], status := .online }

/-- A demo offline linux agent. -/
def demoAgentOff : Agent :=
  { paw := "a2", platform := "linux", executors := ["sh"], status := .offline }

/-- A demo environment: one scenario, one online and one offline agent,
two catalogued techniques. -/
def demoEnv : Env :=
  { scenarios := [demoScenario],
    agents := [demoAgentOn, demoAgentOff],
    catalog := [demoTech, demoTechUnsafe] }

/-- The plan the orchestrator produces for the demo scenario with the
online agent, safe mode off. -/
def demoPlan : ExecutionPlan :=
  { tasks := specPlannedTasks demoEnv.catalog demoScenario [demoAgentOn] false }

/-- The plan the orchestrator produces for the demo scenario with the
online agent, safe mode on. -/
def demoSafePlan : ExecutionPlan :=
  { tasks := specPlannedTasks demoEnv.catalog demoScenario [demoAgentOn] true }

/-- A phase referencing one catalogued and one unknown technique id. -/
def demoPhaseUnknown : Phase :=
  { name := "p1", techniques := ["T1", "TX"] }

/-- A scenario whose phase references an unknown technique id. -/
def demoScenarioUnknown : Scenario :=
  { id := "s2", phases := [demoPhaseUnknown] }

/-- A store holding one running execution with two pending results, used
to exhibit a partial cancellation failure. -/
def partialStore : Store :=
  { executions := [mkExecution .running],
    results := [freshResult "r1", freshResult "r2"] }

/-! Helper lemmas about id-keyed updates of the store lists. -/

lemma find?_update_eq {α : Type} (idf : α → String) (key : String) (a a' : α)
    (hid : idf a' = idf a) (l : List α)
    (h : l.find? (fun x => idf x == key) = some a) :
    (l.map (fun x => if idf x == idf a' then a' else x)).find?
      (fun x => idf x == key) = some a' := by
  induction l with
  | nil => simp at h
  | cons x xs ih =>
    by_cases hx : (idf x == key) = true
    · simp only [List.find?_cons, hx] at h
      injection h with h
      subst h
      have hkey : idf x = key := by simpa using hx
      have hcond : (idf x == idf a') = true := by simp [hid]
      rw [List.map_cons, if_pos hcond]
      simp only [List.find?_cons, show (idf a' == key) = true by simp [hid, hkey]]
    · rw [Bool.not_eq_true] at hx
      simp only [List.find?_cons, hx] at h
      have hkey : idf a = key := by simpa using List.find?_some h
      have hcond : (idf x == idf a') = false := by
        rw [hid, hkey]
        exact hx
      rw [List.map_cons, if_neg (by simp [hcond])]
      simp only [List.find?_cons, hx]
      exact ih h

lemma find?_update_ne {α : Type} (idf : α → String) (key : String) (a' : α)
    (h : ¬(idf a' = key)) (l : List α) :
    (l.map (fun x => if idf x == idf a' then a' else x)).find?
      (fun x => idf x == key) = l.find? (fun x => idf x == key) := by
  induction l with
  | nil => rfl
  | cons x xs ih =>
    by_cases hx : (idf x == idf a') = true
    · have hxid : idf x = idf a' := by simpa using hx
      have hxkey : (idf x == key) = false := by
        rw [hxid]
        simpa using h
      have hakey : (idf a' == key) = false := by simpa using h
      rw [List.map_cons, if_pos hx]
      simp only [List.find?_cons, hxkey, hakey]
      exact ih
    · rw [Bool.not_eq_true] at hx
      rw [List.map_cons, if_neg (by simp [hx])]
      simp only [List.find?_cons]
      cases hk : (idf x == key) with
      | true => rfl
      | false => exact ih

lemma find?_update_none {α : Type} (idf : α → String) (key : String) (a' : α)
    (l : List α) (h : l.find? (fun x => idf x == key) = none) :
    (l.map (fun x => if idf x == idf a' then a' else x)).find?
      (fun x => idf x == key) = none := by
  induction l with
  | nil => rfl
  | cons x xs ih =>
    rw [List.find?_eq_none] at h ⊢
    intro y hy
    rw [List.mem_map] at hy
    obtain ⟨z, hz, hzy⟩ := hy
    by_cases hc : (idf z == idf a') = true
    · rw [if_pos hc] at hzy
      subst hzy
      have hz' : ¬((idf z == key) = true) := h z hz
      intro hcon
      apply hz'
      have : idf z = idf a' := by simpa using hc
      rw [this]
      exact hcon
    · rw [if_neg hc] at hzy
      subst hzy
      exact h z hz

@[simp] lemma updateResult_executions (st : Store) (r : ExecutionResult) :
    (st.updateResult r).executions = st.executions := rfl

@[simp] lemma updateExecution_results (st : Store) (e : Execution) :
    (st.updateExecution e).results = st.results := rfl

@[simp] lemma updateResult_findExecution (st : Store) (r : ExecutionResult)
    (i : String) : (st.updateResult r).findExecution i = st.findExecution i := rfl

@[simp] lemma updateExecution_resultsOf (st : Store) (e : Execution)
    (i : String) : (st.updateExecution e).resultsOf i = st.resultsOf i := rfl

lemma findExecution_id (st : Store) (i : String) (e : Execution)
    (h : st.findExecution i = some e) : e.id = i := by
  simpa using List.find?_some h

lemma findResult_id (st : Store) (i : String) (r : ExecutionResult)
    (h : st.findResult i = some r) : r.id = i := by
  simpa using List.find?_some h

lemma findExecution_updateExecution_eq (st : Store) (i : String)
    (e e' : Execution) (hid : e'.id = e.id) (h : st.findExecution i = some e) :
    (st.updateExecution e').findExecution i = some e' :=
  find?_update_eq Execution.id i e e' hid st.executions h

lemma findExecution_updateExecution_ne (st : Store) (i : String)
    (e' : Execution) (h : ¬(e'.id = i)) :
    (st.updateExecution e').findExecution i = st.findExecution i :=
  find?_update_ne Execution.id i e' h st.executions

lemma findResult_updateResult_eq (st : Store) (i : String)
    (r r' : ExecutionResult) (hid : r'.id = r.id) (h : st.findResult i = some r) :
    (st.updateResult r').findResult i = some r' :=
  find?_update_eq ExecutionResult.id i r r' hid st.results h

lemma cancelLoop_executions (persistOk : String → Bool) (now : Time) :
    ∀ (todo : List ExecutionResult) (st : Store),
      ((cancelLoop persistOk now todo st).2).executions = st.executions := by
  intro todo
  induction todo with
  | nil => intro st; rfl
  | cons r rest ih =>
    intro st
    unfold cancelLoop
    by_cases hpr : (r.status == .pending || r.status == .running) = true
    · rw [if_pos hpr]
      by_cases hok : persistOk r.id = true
      · rw [if_pos hok]
        exact ih _
      · rw [if_neg hok]
    · rw [if_neg hpr]
      exact ih st

/-- CompleteExecution never moves an execution out of Completed: the
execution it targets ends up Completed, and any other execution is
untouched. -/
lemma completeExecution_preserves_completed (st : Store) (e2 : String)
    (now : Time) (i : String)
    (h : st.executionStatus i = some .completed) :
    ((CompleteExecution st e2 now).2).executionStatus i = some .completed := by
  unfold CompleteExecution
  cases hfind : st.findExecution e2 with
  | none => simpa [hfind] using h
  | some ex =>
    simp only [hfind]
    by_cases hi : i = e2
    · subst hi
      unfold Store.executionStatus
      rw [findExecution_updateExecution_eq st i ex _ (by rfl) hfind]
      rfl
    · unfold Store.executionStatus
      rw [findExecution_updateExecution_ne st i _ (by
        show ¬(ex.id = i)
        rw [findExecution_id st e2 ex hfind]
        exact fun hc => hi hc.symm)]
      exact h

lemma executionStatus_eq_of_executions_eq (st st' : Store)
    (h : st'.executions = st.executions) (i : String) :
    st'.executionStatus i = st.executionStatus i := by
  unfold Store.executionStatus Store.findExecution
  rw [h]

/-- checkAndCompleteExecution never moves an execution out of Completed. -/
lemma checkAndComplete_preserves_completed (st : Store) (e2 : String)
    (now : Time) (loadOk : Bool) (i : String)
    (h : st.executionStatus i = some .completed) :
    ((checkAndCompleteExecution st e2 now loadOk).2).executionStatus i
      = some .completed := by
  unfold checkAndCompleteExecution
  by_cases hl : (!loadOk) = true
  · rw [if_pos hl]
    exact h
  · rw [if_neg hl]
    by_cases hd : ((st.resultsOf e2).all
        (fun r => !(r.status == .pending || r.status == .running))
        && (st.resultsOf e2).length > 0) = true
    · rw [if_pos hd]
      exact completeExecution_preserves_completed st e2 now i h
    · rw [if_neg hd]
      exact h

/-- UpdateResultByID never moves an execution out of Completed. -/
lemma updateResultByID_preserves_completed (st : Store) (rid : String)
    (status : ResultStatus) (out : String) (code : Int) (now : Time)
    (loadOk : Bool) (i : String)
    (h : st.executionStatus i = some .completed) :
    ((UpdateResultByID st rid status out code now loadOk).2).executionStatus i
      = some .completed := by
  unfold UpdateResultByID
  cases hfind : st.findResult rid with
  | none => exact h
  | some r =>
    simp only
    exact checkAndComplete_preserves_completed _ _ _ _ _ h

/-- CancelExecution never moves an execution out of Completed. -/
lemma cancelExecution_preserves_completed (st : Store) (e2 : String)
    (now : Time) (persistOk : String → Bool) (i : String)
    (h : st.executionStatus i = some .completed) :
    ((CancelExecution st e2 now persistOk).2).executionStatus i
      = some .completed := by
  unfold CancelExecution
  cases hfind : st.findExecution e2 with
  | none => exact h
  | some ex =>
    simp only
    by_cases hguard : (!(ex.status == .running) && !(ex.status == .pending)) = true
    · rw [if_pos hguard]
      exact h
    · rw [if_neg hguard]
      rcases hloop : cancelLoop persistOk now (st.resultsOf e2) st with ⟨res, st1⟩
      have hst1 : st1.executions = st.executions := by
        have := cancelLoop_executions persistOk now (st.resultsOf e2) st
        rw [hloop] at this
        exact this
      cases res with
      | error e =>
        simp only
        rw [executionStatus_eq_of_executions_eq st st1 hst1 i]
        exact h
      | ok u =>
        cases u
        simp only
        by_cases hi : i = e2
        · subst hi
          exfalso
          have hstat : ex.status = .completed := by
            unfold Store.executionStatus at h
            rw [hfind] at h
            simpa using h
          apply hguard
          rw [hstat]
          decide
        · unfold Store.executionStatus
          rw [findExecution_updateExecution_ne st1 i _ (by
            show ¬(ex.id = i)
            rw [findExecution_id st e2 ex hfind]
            exact fun hc => hi hc.symm)]
          rw [show st1.findExecution i = st.findExecution i by
            unfold Store.findExecution
            rw [hst1]]
          exact h

lemma map_updFold_nil (st : Store) (now : Time) :
    { st with results := st.results.map (updFold now []) } = st := by
  cases st with
  | mk ex rs =>
    rw [show updFold now [] = id from funext (fun x => rfl), List.map_id]

lemma cancelLoop_all_ok (pOk : String → Bool) (now : Time) :
    ∀ (todo : List ExecutionResult) (st : Store),
      (∀ r ∈ todo,
        (r.status == .pending || r.status == .running) = true → pOk r.id = true) →
      cancelLoop pOk now todo st
        = (.ok (), { st with results := st.results.map (updFold now todo) }) := by
  intro todo
  induction todo with
  | nil =>
    intro st _
    rw [map_updFold_nil]
    rfl
  | cons r rest ih =>
    intro st hok
    unfold cancelLoop
    by_cases hpr : (r.status == .pending || r.status == .running) = true
    · rw [if_pos hpr, if_pos (hok r (List.mem_cons_self r rest) hpr)]
      rw [ih _ (fun p hp hpp => hok p (List.mem_cons_of_mem r hp) hpp)]
      have hmap : ((st.updateResult (skipResult now r)).results).map (updFold now rest)
          = st.results.map (updFold now (r :: rest)) := by
        show ((st.results.map
            (fun x => if x.id == (skipResult now r).id then skipResult now r
              else x)).map (updFold now rest)) = _
        rw [List.map_map]
        apply List.map_congr_left
        intro x _
        show updFold now rest
            (if (x.id == (skipResult now r).id) = true then skipResult now r else x)
          = updFold now rest
            (if ((r.status == .pending || r.status == .running) && x.id == r.id) = true
              then skipResult now r else x)
        congr 1
        rw [hpr, Bool.true_and]
        simp [skipResult]
      rw [hmap]
      rfl
    · rw [if_neg hpr]
      rw [ih st (fun p hp hpp => hok p (List.mem_cons_of_mem r hp) hpp)]
      have hmap : st.results.map (updFold now rest)
          = st.results.map (updFold now (r :: rest)) := by
        apply List.map_congr_left
        intro x _
        show updFold now rest x
          = updFold now rest
            (if ((r.status == .pending || r.status == .running) && x.id == r.id) = true
              then skipResult now r else x)
        rw [Bool.not_eq_true] at hpr
        rw [hpr, Bool.false_and]
        rfl
      rw [hmap]

lemma updFold_skip (now : Time) (y : ExecutionResult) :
    ∀ todo : List ExecutionResult,
      (∀ r ∈ todo, ¬(r.id = y.id)) → updFold now todo y = y := by
  intro todo
  induction todo with
  | nil => intro _; rfl
  | cons r rest ih =>
    intro h
    have hne : (y.id == r.id) = false := by
      simp only [beq_eq_false_iff_ne, ne_eq]
      exact fun hc => h r (List.mem_cons_self r rest) hc.symm
    show List.foldl _
        (if ((r.status == .pending || r.status == .running) && y.id == r.id) = true
          then skipResult now r else y) rest = y
    rw [hne, Bool.and_false]
    simp only [Bool.false_eq_true, if_false]
    exact ih (fun p hp => h p (List.mem_cons_of_mem r hp))

lemma updFold_mem (now : Time) (x : ExecutionResult) :
    ∀ todo : List ExecutionResult,
      List.Pairwise (fun a b => ¬(a.id = b.id)) todo →
      (∀ r ∈ todo, r.id = x.id → r = x) →
      updFold now todo x
        = if x ∈ todo ∧ (x.status == .pending || x.status == .running) = true
          then skipResult now x else x := by
  intro todo
  induction todo with
  | nil =>
    intro _ _
    rw [if_neg (fun hc => List.not_mem_nil x hc.1)]
    rfl
  | cons r rest ih =>
    intro hpw hinj
    have hrestne : ∀ p ∈ rest, ¬(r.id = p.id) :=
      (List.pairwise_cons.mp hpw).1
    by_cases hid : r.id = x.id
    · have hrx : r = x := hinj r (List.mem_cons_self r rest) hid
      subst hrx
      by_cases hpr : (r.status == .pending || r.status == .running) = true
      · rw [if_pos ⟨List.mem_cons_self r rest, hpr⟩]
        show List.foldl _
            (if ((r.status == .pending || r.status == .running) && r.id == r.id) = true
              then skipResult now r else r) rest = _
        rw [hpr, beq_self_eq_true, Bool.and_self, if_pos rfl]
        rw [show List.foldl _ (skipResult now r) rest
            = updFold now rest (skipResult now r) from rfl]
        exact updFold_skip now (skipResult now r) rest
          (fun p hp hc => hrestne p hp (by simpa [skipResult] using hc.symm))
      · rw [Bool.not_eq_true] at hpr
        rw [if_neg (fun hc => by simp [hpr] at hc)]
        show List.foldl _
            (if ((r.status == .pending || r.status == .running) && r.id == r.id) = true
              then skipResult now r else r) rest = _
        rw [hpr, Bool.false_and]
        simp only [Bool.false_eq_true, if_false]
        rw [show List.foldl _ r rest = updFold now rest r from rfl]
        exact updFold_skip now r rest (fun p hp hc => hrestne p hp hc.symm)
    · have hne : (x.id == r.id) = false := by
        simp only [beq_eq_false_iff_ne, ne_eq]
        exact fun hc => hid hc.symm
      show List.foldl _
          (if ((r.status == .pending || r.status == .running) && x.id == r.id) = true
            then skipResult now r else x) rest = _
      rw [hne, Bool.and_false]
      simp only [Bool.false_eq_true, if_false]
      rw [show List.foldl _ x rest = updFold now rest x from rfl]
      rw [ih hpw.of_cons (fun p hp hpx => hinj p (List.mem_cons_of_mem r hp) hpx)]
      have hxr : ¬(x = r) := fun hc => hid (by rw [hc])
      by_cases hmem : x ∈ rest ∧ (x.status == .pending || x.status == .running) = true
      · rw [if_pos hmem, if_pos ⟨List.mem_cons_of_mem r hmem.1, hmem.2⟩]
      · rw [if_neg hmem, if_neg (fun hc => hmem
          ⟨(List.mem_cons.mp hc.1).resolve_left hxr, hc.2⟩)]

lemma results_pairwise_of_nodup (st : Store)
    (hnodup : (st.results.map ExecutionResult.id).Nodup) :
    st.results.Pairwise (fun a b => ¬(a.id = b.id)) := by
  rw [List.Nodup, List.pairwise_map] at hnodup
  exact hnodup

lemma results_inj_of_nodup (st : Store)
    (hnodup : (st.results.map ExecutionResult.id).Nodup) :
    ∀ a ∈ st.results, ∀ b ∈ st.results, a.id = b.id → a = b := by
  intro a ha b hb heq
  by_cases hab : a = b
  · exact hab
  · have hsym : Symmetric (fun (a b : ExecutionResult) => ¬(a.id = b.id)) := by
      intro x y hxy hc
      exact hxy hc.symm
    exact absurd heq
      ((results_pairwise_of_nodup st hnodup).forall hsym ha hb hab)

lemma cancelLoop_resultsOf (st : Store) (i : String) (now : Time)
    (pOk : String → Bool)
    (hnodup : (st.results.map ExecutionResult.id).Nodup)
    (hok : ∀ r ∈ st.resultsOf i,
      (r.status == .pending || r.status == .running) = true → pOk r.id = true) :
    cancelLoop pOk now (st.resultsOf i) st
      = (.ok (), { st with results := st.results.map (fun x =>
          if (x.executionId == i
              && (x.status == .pending || x.status == .running)) = true
          then skipResult now x else x) }) := by
  rw [cancelLoop_all_ok pOk now (st.resultsOf i) st hok]
  have hpw : (st.resultsOf i).Pairwise (fun a b => ¬(a.id = b.id)) :=
    (results_pairwise_of_nodup st hnodup).sublist (List.filter_sublist _)
  have hmap : st.results.map (updFold now (st.resultsOf i))
      = st.results.map (fun x =>
          if (x.executionId == i
              && (x.status == .pending || x.status == .running)) = true
          then skipResult now x else x) := by
    apply List.map_congr_left
    intro x hx
    have hinj : ∀ r ∈ st.resultsOf i, r.id = x.id → r = x := by
      intro p hp hpid
      exact results_inj_of_nodup st hnodup p (List.mem_of_mem_filter hp) x hx hpid
    rw [updFold_mem now x (st.resultsOf i) hpw hinj]
    by_cases hcond : (x.executionId == i) = true
        ∧ (x.status == .pending || x.status == .running) = true
    · rw [if_pos ⟨List.mem_filter.mpr ⟨hx, hcond.1⟩, hcond.2⟩,
        if_pos (by rw [hcond.1, hcond.2]; rfl)]
    · have h1 : ¬(x ∈ st.resultsOf i
          ∧ (x.status == .pending || x.status == .running) = true) :=
        fun hc => hcond ⟨(List.mem_filter.mp hc.1).2, hc.2⟩
      have h2 : ¬((x.executionId == i
          && (x.status == .pending || x.status == .running)) = true) := by
        intro hc
        rw [Bool.and_eq_true] at hc
        exact hcond hc
      rw [if_neg h1, if_neg h2]
  rw [hmap]

lemma cancelLoop_fail (pOk : String → Bool) (now : Time) (r0 : ExecutionResult)
    (hr0pr : (r0.status == .pending || r0.status == .running) = true)
    (hr0fail : pOk r0.id = false) :
    ∀ (pre post : List ExecutionResult) (st : Store),
      (∀ p ∈ pre,
        (p.status == .pending || p.status == .running) = true → pOk p.id = true) →
      cancelLoop pOk now (pre ++ r0 :: post) st
        = (.error .persistenceFailure,
            { st with results := st.results.map (updFold now pre) }) := by
  intro pre
  induction pre with
  | nil =>
    intro post st _
    show cancelLoop pOk now (r0 :: post) st = _
    unfold cancelLoop
    rw [if_pos hr0pr,
      if_neg (by intro h; rw [hr0fail] at h; exact Bool.noConfusion h)]
    rw [map_updFold_nil]
  | cons p pre' ih =>
    intro post st hok
    show cancelLoop pOk now (p :: (pre' ++ r0 :: post)) st = _
    unfold cancelLoop
    by_cases hpr : (p.status == .pending || p.status == .running) = true
    · rw [if_pos hpr, if_pos (hok p (List.mem_cons_self p pre') hpr)]
      rw [ih post _ (fun q hq hqq => hok q (List.mem_cons_of_mem p hq) hqq)]
      have hmap : ((st.updateResult (skipResult now p)).results).map (updFold now pre')
          = st.results.map (updFold now (p :: pre')) := by
        show ((st.results.map
            (fun x => if x.id == (skipResult now p).id then skipResult now p
              else x)).map (updFold now pre')) = _
        rw [List.map_map]
        apply List.map_congr_left
        intro x _
        show updFold now pre'
            (if (x.id == (skipResult now p).id) = true then skipResult now p else x)
          = updFold now pre'
            (if ((p.status == .pending || p.status == .running) && x.id == p.id) = true
              then skipResult now p else x)
        congr 1
        rw [hpr, Bool.true_and]
        simp [skipResult]
      rw [hmap]
      rfl
    · rw [if_neg hpr]
      rw [ih post st (fun q hq hqq => hok q (List.mem_cons_of_mem p hq) hqq)]
      have hmap : st.results.map (updFold now pre')
          = st.results.map (updFold now (p :: pre')) := by
        apply List.map_congr_left
        intro x _
        show updFold now pre' x
          = updFold now pre'
            (if ((p.status == .pending || p.status == .running) && x.id == p.id) = true
              then skipResult now p else x)
        rw [Bool.not_eq_true] at hpr
        rw [hpr, Bool.false_and]
        rfl
      rw [hmap]

lemma updFold_id (now : Time) :
    ∀ (todo : List ExecutionResult) (x : ExecutionResult),
      (updFold now todo x).id = x.id := by
  intro todo
  induction todo with
  | nil => intro x; rfl
  | cons r rest ih =>
    intro x
    show (updFold now rest
        (if ((r.status == .pending || r.status == .running) && x.id == r.id) = true
          then skipResult now r else x)).id = x.id
    by_cases hc : ((r.status == .pending || r.status == .running) && x.id == r.id) = true
    · rw [if_pos hc, ih]
      rw [Bool.and_eq_true] at hc
      have : x.id = r.id := by simpa using hc.2
      rw [show (skipResult now r).id = r.id from rfl, this]
    · rw [if_neg hc, ih]

lemma find?_map_id_preserving (f : ExecutionResult → ExecutionResult)
    (hf : ∀ x, (f x).id = x.id) (key : String) :
    ∀ l : List ExecutionResult,
      (l.map f).find? (fun x => x.id == key)
        = (l.find? (fun x => x.id == key)).map f := by
  intro l
  induction l with
  | nil => rfl
  | cons x xs ih =>
    rw [List.map_cons]
    by_cases hx : (x.id == key) = true
    · simp only [List.find?_cons, hf, hx]
      rfl
    · rw [Bool.not_eq_true] at hx
      simp only [List.find?_cons, hf, hx]
      exact ih

lemma find?_id_of_mem {l : List ExecutionResult}
    (hnodup : (l.map ExecutionResult.id).Nodup)
    (p : ExecutionResult) (hp : p ∈ l) :
    l.find? (fun x => x.id == p.id) = some p := by
  induction l with
  | nil => exact absurd hp (List.not_mem_nil p)
  | cons x xs ih =>
    rw [List.map_cons, List.nodup_cons] at hnodup
    by_cases hx : (x.id == p.id) = true
    · simp only [List.find?_cons, hx]
      rcases List.mem_cons.mp hp with hpx | hpxs
      · rw [hpx]
      · exfalso
        apply hnodup.1
        rw [show x.id = p.id by simpa using hx]
        exact List.mem_map_of_mem ExecutionResult.id hpxs
    · rw [Bool.not_eq_true] at hx
      simp only [List.find?_cons, hx]
      rcases List.mem_cons.mp hp with hpx | hpxs
      · exfalso
        rw [hpx] at hx
        simp at hx
      · exact ih hnodup.2 hpxs

lemma specTasksFrom_append (l1 : List (String × String × Agent × ExecutorSpec)) :
    ∀ (n : Nat) (l2 : List (String × String × Agent × ExecutorSpec)),
      specTasksFrom n (l1 ++ l2)
        = specTasksFrom n l1 ++ specTasksFrom (n + l1.length) l2 := by
  induction l1 with
  | nil =>
    intro n l2
    simp [specTasksFrom]
  | cons p rest ih =>
    intro n l2
    show mkPlanned n p :: specTasksFrom (n + 1) (rest ++ l2) = _
    rw [ih (n + 1) l2]
    show _ = mkPlanned n p :: (specTasksFrom (n + 1) rest
      ++ specTasksFrom (n + (rest.length + 1)) l2)
    rw [show n + (rest.length + 1) = n + 1 + rest.length by omega]

lemma specTasksFrom_length :
    ∀ (l : List (String × String × Agent × ExecutorSpec)) (n : Nat),
      (specTasksFrom n l).length = l.length := by
  intro l
  induction l with
  | nil => intro n; rfl
  | cons p rest ih =>
    intro n
    show (mkPlanned n p :: specTasksFrom (n + 1) rest).length = rest.length + 1
    rw [List.length_cons, ih (n + 1)]

lemma specTasksFrom_get :
    ∀ (l : List (String × String × Agent × ExecutorSpec)) (n k : Nat)
      (hk : k < (specTasksFrom n l).length),
      ((specTasksFrom n l).get ⟨k, hk⟩).order = n + k := by
  intro l
  induction l with
  | nil =>
    intro n k hk
    exact absurd hk (by simp [specTasksFrom])
  | cons p rest ih =>
    intro n k hk
    cases k with
    | zero =>
      show (mkPlanned n p).order = n + 0
      rfl
    | succ k' =>
      show ((specTasksFrom (n + 1) rest).get ⟨k', _⟩).order = n + (k' + 1)
      rw [ih (n + 1) k' _]
      omega

lemma agentPairs_cons_incomp (technique : Technique) (techID phaseName : String)
    (agent : Agent) (rest : List Agent)
    (h : ¬(agent.IsCompatible technique = true)) :
    agentPairs technique techID phaseName (agent :: rest)
      = agentPairs technique techID phaseName rest :=
  List.filterMap_cons_none (by rw [if_neg h])

lemma agentPairs_cons_noexec (technique : Technique) (techID phaseName : String)
    (agent : Agent) (rest : List Agent)
    (h1 : agent.IsCompatible technique = true)
    (h2 : technique.GetExecutorForPlatform agent.platform agent.executors = none) :
    agentPairs technique techID phaseName (agent :: rest)
      = agentPairs technique techID phaseName rest :=
  List.filterMap_cons_none (by rw [if_pos h1, h2]; rfl)

lemma agentPairs_cons_some (technique : Technique) (techID phaseName : String)
    (agent : Agent) (rest : List Agent) (executor : ExecutorSpec)
    (h1 : agent.IsCompatible technique = true)
    (h2 : technique.GetExecutorForPlatform agent.platform agent.executors
      = some executor) :
    agentPairs technique techID phaseName (agent :: rest)
      = (techID, phaseName, agent, executor)
          :: agentPairs technique techID phaseName rest :=
  List.filterMap_cons_some (by rw [if_pos h1, h2]; rfl)

lemma planAgents_eq (technique : Technique) (techID phaseName : String) :
    ∀ (agents : List Agent) (tasks : List PlannedTask) (order : Nat),
      planAgents technique techID phaseName agents tasks order
        = (tasks ++ specTasksFrom order (agentPairs technique techID phaseName agents),
           order + (agentPairs technique techID phaseName agents).length) := by
  intro agents
  induction agents with
  | nil =>
    intro tasks order
    simp [planAgents, agentPairs, specTasksFrom]
  | cons agent rest ih =>
    intro tasks order
    unfold planAgents
    by_cases hcomp : agent.IsCompatible technique = true
    · rw [if_neg (by rw [hcomp]; intro hc; exact Bool.noConfusion hc)]
      cases hexec : technique.GetExecutorForPlatform agent.platform agent.executors with
      | none =>
        rw [agentPairs_cons_noexec technique techID phaseName agent rest hcomp hexec]
        exact ih tasks order
      | some executor =>
        rw [agentPairs_cons_some technique techID phaseName agent rest executor
          hcomp hexec]
        show planAgents technique techID phaseName rest
            (tasks ++ [mkPlanned order (techID, phaseName, agent, executor)])
            (order + 1) = _
        rw [ih _ (order + 1), List.append_assoc]
        rw [show order + 1 + (agentPairs technique techID phaseName rest).length
            = order + ((agentPairs technique techID phaseName rest).length + 1)
          from by omega]
        rfl
    · rw [if_pos (by rw [Bool.not_eq_true] at hcomp; rw [hcomp]; rfl)]
      rw [agentPairs_cons_incomp technique techID phaseName agent rest hcomp]
      exact ih tasks order

lemma techPairs_cons (catalog : List Technique) (agents : List Agent)
    (safeMode : Bool) (phaseName : String) (techID : String)
    (rest : List String) :
    techPairs catalog agents safeMode phaseName (techID :: rest)
      = (match findTechnique catalog techID with
          | none => []
          | some technique =>
            if safeMode && !technique.isSafe then []
            else agentPairs technique techID phaseName agents)
        ++ techPairs catalog agents safeMode phaseName rest :=
  List.flatMap_cons _ _ _

lemma planTechniques_eq (catalog : List Technique) (agents : List Agent)
    (safeMode : Bool) (phaseName : String) :
    ∀ (techIDs : List String) (tasks : List PlannedTask) (order : Nat),
      planTechniques catalog agents safeMode phaseName techIDs tasks order
        = (tasks ++ specTasksFrom order
            (techPairs catalog agents safeMode phaseName techIDs),
           order + (techPairs catalog agents safeMode phaseName techIDs).length) := by
  intro techIDs
  induction techIDs with
  | nil =>
    intro tasks order
    simp [planTechniques, techPairs, specTasksFrom]
  | cons techID rest ih =>
    intro tasks order
    unfold planTechniques
    rw [techPairs_cons]
    cases hfind : findTechnique catalog techID with
    | none =>
      simp only [List.nil_append]
      exact ih tasks order
    | some technique =>
      simp only
      by_cases hsafe : (safeMode && !technique.isSafe) = true
      · rw [if_pos hsafe, if_pos hsafe]
        simp only [List.nil_append]
        exact ih tasks order
      · rw [if_neg hsafe, if_neg hsafe]
        rw [planAgents_eq technique techID phaseName agents tasks order]
        simp only
        rw [ih _ _]
        rw [specTasksFrom_append, List.append_assoc]
        rw [show order + (agentPairs technique techID phaseName agents).length
              + (techPairs catalog agents safeMode phaseName rest).length
            = order + ((agentPairs technique techID phaseName agents).length
              + (techPairs catalog agents safeMode phaseName rest).length)
          from by omega]
        rw [← List.length_append]

lemma phasePairs_cons (catalog : List Technique) (agents : List Agent)
    (safeMode : Bool) (phase : Phase) (rest : List Phase) :
    phasePairs catalog agents safeMode (phase :: rest)
      = techPairs catalog agents safeMode phase.name phase.techniques
        ++ phasePairs catalog agents safeMode rest :=
  List.flatMap_cons _ _ _

lemma planPhases_eq (catalog : List Technique) (agents : List Agent)
    (safeMode : Bool) :
    ∀ (phases : List Phase) (tasks : List PlannedTask) (order : Nat),
      planPhases catalog agents safeMode phases tasks order
        = (tasks ++ specTasksFrom order (phasePairs catalog agents safeMode phases),
           order + (phasePairs catalog agents safeMode phases).length) := by
  intro phases
  induction phases with
  | nil =>
    intro tasks order
    simp [planPhases, phasePairs, specTasksFrom]
  | cons phase rest ih =>
    intro tasks order
    unfold planPhases
    rw [phasePairs_cons]
    rw [planTechniques_eq catalog agents safeMode phase.name phase.techniques
      tasks order]
    simp only
    rw [ih _ _]
    rw [specTasksFrom_append, List.append_assoc]
    rw [show order + (techPairs catalog agents safeMode phase.name phase.techniques).length
          + (phasePairs catalog agents safeMode rest).length
        = order + ((techPairs catalog agents safeMode phase.name phase.techniques).length
          + (phasePairs catalog agents safeMode rest).length)
      from by omega]
    rw [← List.length_append]

lemma planExecution_eq (catalog : List Technique) (scenario : Scenario)
    (targetAgents : List Agent) (safeMode : Bool) :
    PlanExecution catalog scenario targetAgents safeMode
      = if (specPlannedPairs catalog scenario targetAgents safeMode).length = 0
        then .error .noExecutableTasks
        else .ok { tasks := specPlannedTasks catalog scenario targetAgents safeMode } := by
  unfold PlanExecution
  rw [planPhases_eq catalog targetAgents safeMode scenario.phases [] 0]
  simp only [List.nil_append]
  rw [specTasksFrom_length]
  rfl

lemma mem_agentPairs {technique : Technique} {techID phaseName : String}
    {agents : List Agent} {p : String × String × Agent × ExecutorSpec}
    (hp : p ∈ agentPairs technique techID phaseName agents) :
    ∃ a ∈ agents, ∃ e, a.IsCompatible technique = true
      ∧ technique.GetExecutorForPlatform a.platform a.executors = some e
      ∧ p = (techID, phaseName, a, e) := by
  unfold agentPairs at hp
  rw [List.mem_filterMap] at hp
  obtain ⟨a, ha, hfa⟩ := hp
  by_cases hcomp : a.IsCompatible technique = true
  · rw [if_pos hcomp] at hfa
    rw [Option.map_eq_some'] at hfa
    obtain ⟨e, he, hpe⟩ := hfa
    exact ⟨a, ha, e, hcomp, he, hpe.symm⟩
  · rw [if_neg hcomp] at hfa
    exact absurd hfa Option.noConfusion

lemma mem_techPairs {catalog : List Technique} {agents : List Agent}
    {safeMode : Bool} {phaseName : String} {techIDs : List String}
    {p : String × String × Agent × ExecutorSpec}
    (hp : p ∈ techPairs catalog agents safeMode phaseName techIDs) :
    ∃ techID ∈ techIDs, ∃ t, findTechnique catalog techID = some t
      ∧ ¬((safeMode && !t.isSafe) = true)
      ∧ p ∈ agentPairs t techID phaseName agents := by
  unfold techPairs at hp
  rw [List.mem_flatMap] at hp
  obtain ⟨techID, htid, hp2⟩ := hp
  cases hfind : findTechnique catalog techID with
  | none =>
    rw [hfind] at hp2
    exact absurd hp2 (List.not_mem_nil p)
  | some t =>
    rw [hfind] at hp2
    replace hp2 : p ∈ (if (safeMode && !t.isSafe) = true then []
        else agentPairs t techID phaseName agents) := hp2
    by_cases hsafe : (safeMode && !t.isSafe) = true
    · rw [if_pos hsafe] at hp2
      exact absurd hp2 (List.not_mem_nil p)
    · rw [if_neg hsafe] at hp2
      exact ⟨techID, htid, t, hfind, hsafe, hp2⟩

lemma mem_phasePairs {catalog : List Technique} {agents : List Agent}
    {safeMode : Bool} {phases : List Phase}
    {p : String × String × Agent × ExecutorSpec}
    (hp : p ∈ phasePairs catalog agents safeMode phases) :
    ∃ phase ∈ phases,
      p ∈ techPairs catalog agents safeMode phase.name phase.techniques := by
  unfold phasePairs at hp
  rw [List.mem_flatMap] at hp
  obtain ⟨phase, hph, hp2⟩ := hp
  exact ⟨phase, hph, hp2⟩

lemma mem_specTasksFrom {tk : PlannedTask} :
    ∀ (l : List (String × String × Agent × ExecutorSpec)) (n : Nat),
      tk ∈ specTasksFrom n l → ∃ p ∈ l, tk.techniqueId = p.1 := by
  intro l
  induction l with
  | nil =>
    intro n h
    exact absurd h (List.not_mem_nil tk)
  | cons p rest ih =>
    intro n h
    rcases List.mem_cons.mp h with hhead | htail
    · exact ⟨p, List.mem_cons_self p rest, by rw [hhead]; rfl⟩
    · obtain ⟨q, hq, hq2⟩ := ih (n + 1) htail
      exact ⟨q, List.mem_cons_of_mem p hq, hq2⟩

lemma techPairs_cons_eq (catalog : List Technique) (agents : List Agent)
    (safeMode : Bool) (phaseName techID : String) (rest : List String)
    (l : List (String × String × Agent × ExecutorSpec))
    (h : (match findTechnique catalog techID with
        | none => []
        | some technique =>
          if (safeMode && !technique.isSafe) = true then []
          else agentPairs technique techID phaseName agents) = l) :
    techPairs catalog agents safeMode phaseName (techID :: rest)
      = l ++ techPairs catalog agents safeMode phaseName rest := by
  rw [techPairs_cons, h]

lemma countP_agentPairs_ne (technique : Technique)
    (techID' techID phaseName paw : String) (agents : List Agent)
    (hne : ¬(techID' = techID)) :
    (agentPairs technique techID' phaseName agents).countP
      (fun p => p.1 == techID && p.2.2.1.paw == paw) = 0 := by
  rw [List.countP_eq_zero]
  intro p hp
  obtain ⟨a, _, e, _, _, hpe⟩ := mem_agentPairs hp
  subst hpe
  intro hc
  rw [Bool.and_eq_true] at hc
  exact hne (by simpa using hc.1)

lemma countP_agentPairs_eq (technique : Technique)
    (techID phaseName paw : String) :
    ∀ agents : List Agent,
      (agentPairs technique techID phaseName agents).countP
        (fun p => p.1 == techID && p.2.2.1.paw == paw)
      = agents.countP (fun a => (a.paw == paw) && a.IsCompatible technique
          && (technique.GetExecutorForPlatform a.platform a.executors).isSome) := by
  intro agents
  induction agents with
  | nil => rfl
  | cons a rest ih =>
    by_cases hcomp : a.IsCompatible technique = true
    · cases hexec : technique.GetExecutorForPlatform a.platform a.executors with
      | none =>
        rw [agentPairs_cons_noexec _ _ _ _ _ hcomp hexec, ih, List.countP_cons]
        simp [hexec]
      | some e =>
        rw [agentPairs_cons_some _ _ _ _ _ _ hcomp hexec,
          List.countP_cons, List.countP_cons, ih]
        congr 1
        simp [hcomp, hexec]
    · rw [agentPairs_cons_incomp _ _ _ _ _ hcomp, ih, List.countP_cons]
      rw [Bool.not_eq_true] at hcomp
      simp [hcomp]

lemma countP_techPairs (catalog : List Technique) (agents : List Agent)
    (phaseName : String) (techID paw : String) (t : Technique)
    (hfind : findTechnique catalog techID = some t)
    (hsafe : t.isSafe = true) :
    ∀ techIDs : List String,
      (techPairs catalog agents true phaseName techIDs).countP
        (fun p => p.1 == techID && p.2.2.1.paw == paw)
      = techIDs.count techID * agents.countP (fun a => (a.paw == paw)
          && a.IsCompatible t
          && (t.GetExecutorForPlatform a.platform a.executors).isSome) := by
  intro techIDs
  induction techIDs with
  | nil => simp [techPairs]
  | cons tid' rest ih =>
    by_cases htid : tid' = techID
    · subst htid
      rw [techPairs_cons_eq catalog agents true phaseName tid' rest
        (agentPairs t tid' phaseName agents) (by
          rw [hfind]
          show (if (true && !t.isSafe) = true then []
            else agentPairs t tid' phaseName agents) = agentPairs t tid' phaseName agents
          rw [if_neg (by rw [hsafe]; intro hc; exact Bool.noConfusion hc)])]
      rw [List.countP_append, ih, countP_agentPairs_eq, List.count_cons_self]
      ring
    · cases hfind' : findTechnique catalog tid' with
      | none =>
        rw [techPairs_cons_eq catalog agents true phaseName tid' rest [] (by rw [hfind'])]
        rw [List.nil_append, ih,
          List.count_cons_of_ne (fun hc => htid hc.symm)]
      | some t' =>
        by_cases hsafe' : (true && !t'.isSafe) = true
        · rw [techPairs_cons_eq catalog agents true phaseName tid' rest [] (by
            rw [hfind']
            show (if (true && !t'.isSafe) = true then []
              else agentPairs t' tid' phaseName agents) = []
            rw [if_pos hsafe'])]
          rw [List.nil_append, ih,
            List.count_cons_of_ne (fun hc => htid hc.symm)]
        · rw [techPairs_cons_eq catalog agents true phaseName tid' rest
            (agentPairs t' tid' phaseName agents) (by
              rw [hfind']
              show (if (true && !t'.isSafe) = true then []
                else agentPairs t' tid' phaseName agents)
                = agentPairs t' tid' phaseName agents
              rw [if_neg hsafe'])]
          rw [List.countP_append, ih,
            countP_agentPairs_ne t' tid' techID phaseName paw agents htid,
            List.count_cons_of_ne (fun hc => htid hc.symm)]
          omega

lemma countP_phasePairs (catalog : List Technique) (agents : List Agent)
    (techID paw : String) (t : Technique)
    (hfind : findTechnique catalog techID = some t)
    (hsafe : t.isSafe = true) :
    ∀ phases : List Phase,
      (phasePairs catalog agents true phases).countP
        (fun p => p.1 == techID && p.2.2.1.paw == paw)
      = (phases.flatMap (fun phase => phase.techniques)).count techID
        * agents.countP (fun a => (a.paw == paw) && a.IsCompatible t
          && (t.GetExecutorForPlatform a.platform a.executors).isSome) := by
  intro phases
  induction phases with
  | nil => simp [phasePairs]
  | cons phase rest ih =>
    rw [phasePairs_cons, List.countP_append, ih, List.flatMap_cons,
      List.count_append,
      countP_techPairs catalog agents phase.name techID paw t hfind hsafe]
    ring

lemma countP_specTasksFrom (techID paw : String) :
    ∀ (l : List (String × String × Agent × ExecutorSpec)) (n : Nat),
      (specTasksFrom n l).countP
        (fun tk => tk.techniqueId == techID && tk.agentPaw == paw)
      = l.countP (fun p => p.1 == techID && p.2.2.1.paw == paw) := by
  intro l
  induction l with
  | nil => intro n; rfl
  | cons p rest ih =>
    intro n
    show ((mkPlanned n p :: specTasksFrom (n + 1) rest).countP _) = _
    rw [List.countP_cons, List.countP_cons, ih (n + 1)]
    rfl

lemma countP_unique_paw (a : Agent) (t : Technique)
    (hcomp : a.IsCompatible t = true)
    (hexec : (t.GetExecutorForPlatform a.platform a.executors).isSome = true) :
    ∀ agents : List Agent,
      agents.filter (fun b => b.paw == a.paw) = [a] →
      agents.countP (fun b => (b.paw == a.paw) && b.IsCompatible t
        && (t.GetExecutorForPlatform b.platform b.executors).isSome) = 1 := by
  intro agents
  induction agents with
  | nil =>
    intro h
    exact absurd h (by intro hc; exact List.noConfusion hc)
  | cons b rest ih =>
    intro h
    rw [List.filter_cons] at h
    by_cases hbp : (b.paw == a.paw) = true
    · rw [if_pos hbp] at h
      injection h with h1 h2
      subst h1
      have hzero : rest.countP (fun c => (c.paw == b.paw) && c.IsCompatible t
          && (t.GetExecutorForPlatform c.platform c.executors).isSome) = 0 := by
        rw [List.countP_eq_zero]
        intro c hc hcon
        have hcp : (c.paw == b.paw) = true := by
          rw [Bool.and_eq_true, Bool.and_eq_true] at hcon
          exact hcon.1.1
        have : c ∈ rest.filter (fun c => c.paw == b.paw) :=
          List.mem_filter.mpr ⟨hc, hcp⟩
        rw [h2] at this
        exact List.not_mem_nil c this
      rw [List.countP_cons, hzero, if_pos (by rw [hbp, hcomp, hexec]; rfl)]
    · rw [if_neg hbp] at h
      rw [List.countP_cons, ih h, if_neg (by
        intro hcon
        rw [Bool.and_eq_true, Bool.and_eq_true] at hcon
        exact hbp hcon.1.1)]

/-! Claim theorems. -/

/-- C1 (amended).  Once an Execution is Completed, its status never
changes again under UpdateResultByID, CompleteExecution or
CancelExecution (re-marking it Completed keeps the status Completed, and
cancelling it fails with an InvalidState error leaving the store
unchanged).  A Cancelled Execution, however, is not immutable: the
original claim fails because CompleteExecution has no status guard, so a
late UpdateResultByID on a Cancelled Execution whose Results are all
terminal re-marks it Completed (see the counterexample). -/
theorem c1_amended_terminal_status (st : Store) (i : String)
    (h : st.executionStatus i = some .completed) :
    (∀ rid status out code now loadOk,
      ((UpdateResultByID st rid status out code now loadOk).2).executionStatus i
        = some .completed)
    ∧ (∀ e2 now,
      ((CompleteExecution st e2 now).2).executionStatus i = some .completed)
    ∧ (∀ e2 now persistOk,
      ((CancelExecution st e2 now persistOk).2).executionStatus i = some .completed)
    ∧ (∀ now persistOk,
      CancelExecution st i now persistOk = (.error .invalidState, st)) := by
  refine ⟨?_, ?_, ?_, ?_⟩
  · intro rid status out code now loadOk
    exact updateResultByID_preserves_completed st rid status out code now loadOk i h
  · intro e2 now
    exact completeExecution_preserves_completed st e2 now i h
  · intro e2 now persistOk
    exact cancelExecution_preserves_completed st e2 now persistOk i h
  · intro now persistOk
    unfold CancelExecution
    cases hfind : st.findExecution i with
    | none =>
      exfalso
      unfold Store.executionStatus at h
      rw [hfind] at h
      exact Option.noConfusion h
    | some ex =>
      have hstat : ex.status = .completed := by
        unfold Store.executionStatus at h
        rw [hfind] at h
        simpa using h
      simp only
      rw [if_pos (by rw [hstat]; decide)]

/-- C1 counterexample: in a store with a Cancelled execution whose only
result is already terminal, a late UpdateResultByID flips the
execution's status from Cancelled to Completed, so the status of a
Cancelled execution is not immutable as claimed. -/
theorem c1_counterexample :
    cancelledStore.executionStatus "e1" = some .cancelled
    ∧ ((UpdateResultByID cancelledStore "r1" .successful "late" 0 5
        true).2).executionStatus "e1" = some .completed := by
  exact ⟨rfl, rfl⟩

/-- C1 witness: the amended theorem applied to a concrete store with a
Completed execution. -/
theorem c1_witness :
    ((UpdateResultByID completedStore "r1" .successful "late" 0 5
        true).2).executionStatus "e1" = some .completed
    ∧ ((CompleteExecution completedStore "e1" 6).2).executionStatus "e1"
        = some .completed
    ∧ ((CancelExecution completedStore "e1" 6 alwaysOk).2).executionStatus "e1"
        = some .completed
    ∧ CancelExecution completedStore "e1" 6 alwaysOk
        = (.error .invalidState, completedStore) := by
  have h := c1_amended_terminal_status completedStore "e1" (by rfl)
  exact ⟨h.1 "r1" .successful "late" 0 5 true, h.2.1 "e1" 6,
    h.2.2.1 "e1" 6 alwaysOk, h.2.2.2 6 alwaysOk⟩

lemma checkAndComplete_results (st : Store) (e : String) (now : Time)
    (loadOk : Bool) :
    ((checkAndCompleteExecution st e now loadOk).2).results = st.results := by
  unfold checkAndCompleteExecution CompleteExecution
  by_cases hl : (!loadOk) = true
  · rw [if_pos hl]
  · rw [if_neg hl]
    by_cases hd : ((st.resultsOf e).all
        (fun r => !(r.status == .pending || r.status == .running))
        && (st.resultsOf e).length > 0) = true
    · rw [if_pos hd]
      cases hfind : st.findExecution e with
      | none => rfl
      | some ex => rfl
    · rw [if_neg hd]

/-- C3 (amended).  UpdateResultByID sets the stored Result's status,
output and exitCode to the given values and sets completedAt to the
current time on every update — regardless of whether the new status is
terminal, and overwriting any previously-set completedAt.  The original
claim (completedAt written only on the first terminal transition) fails:
see the counterexample, where an update to the non-terminal Running
status writes completedAt. -/
theorem c3_amended_completedAt_every_update (st : Store) (rid : String)
    (status : ResultStatus) (out : String) (code : Int) (now : Time)
    (loadOk : Bool) (r : ExecutionResult)
    (hfind : st.findResult rid = some r) :
    ((UpdateResultByID st rid status out code now loadOk).2).findResult rid
      = some { r with
          status := status,
          output := out,
          exitCode := code,
          completedAt := some now } := by
  unfold UpdateResultByID
  rw [hfind]
  simp only
  have h1 := findResult_updateResult_eq st rid r
    { r with
      status := status,
      output := out,
      exitCode := code,
      completedAt := some now } rfl hfind
  unfold Store.findResult at h1 ⊢
  rw [checkAndComplete_results]
  exact h1

/-- C3 counterexample: an update that sets the non-terminal Running
status on a Result whose completedAt is unset writes completedAt anyway,
contradicting the claim that a non-terminal update leaves completedAt
unset. -/
theorem c3_counterexample :
    (runningStore.findResult "r1").map ExecutionResult.completedAt
      = some none
    ∧ (((UpdateResultByID runningStore "r1" .running "" 0 7
        true).2).findResult "r1").map ExecutionResult.completedAt
      = some (some 7) := by
  exact ⟨rfl, rfl⟩

/-- C3 witness: the amended theorem applied to a concrete store. -/
theorem c3_witness :
    ((UpdateResultByID runningStore "r1" .running "" 0 7 true).2).findResult "r1"
      = some { freshResult "r1" with
          status := .running,
          output := "",
          exitCode := 0,
          completedAt := some 7 } := by
  exact c3_amended_completedAt_every_update runningStore "r1" .running "" 0 7
    true (freshResult "r1") rfl

/-- C2.  After a successful UpdateResultByID on a Result of a Running
Execution, the call itself succeeds and the Execution ends up Completed,
with the ScoreCalculator's score over its (updated) Results and a set
completedAt, if and only if the Execution has at least one Result and
none of its Results is Pending or Running; and when loading the Results
during the completion check fails, the error is swallowed: the call
still succeeds and only the Result row is updated. -/
theorem c2_auto_complete_iff (st : Store) (rid : String)
    (status : ResultStatus) (out : String) (code : Int) (now : Time)
    (r r' : ExecutionResult) (ex : Execution) (st1 : Store)
    (R : List ExecutionResult)
    (hfind : st.findResult rid = some r)
    (hex : st.findExecution r.executionId = some ex)
    (hrun : ex.status = .running)
    (hr' : r' = { r with
      status := status,
      output := out,
      exitCode := code,
      completedAt := some now })
    (hst1 : st1 = st.updateResult r')
    (hR : R = st1.resultsOf r.executionId) :
    (UpdateResultByID st rid status out code now true).1 = .ok ()
    ∧ ((R ≠ [] ∧ ∀ x ∈ R, ¬(x.status = .pending ∨ x.status = .running)) ↔
        ((UpdateResultByID st rid status out code now true).2).findExecution
          r.executionId
          = some { ex with
              score := some (CalculateScore R),
              status := .completed,
              completedAt := some now })
    ∧ UpdateResultByID st rid status out code now false = (.ok (), st1) := by
  subst hst1 hR
  unfold UpdateResultByID
  rw [hfind]
  simp only
  rw [← hr']
  have hexu : (st.updateResult r').findExecution r.executionId = some ex := hex
  have hcond : (((st.updateResult r').resultsOf r.executionId).all
        (fun x => !(x.status == .pending || x.status == .running))
        && decide (((st.updateResult r').resultsOf r.executionId).length > 0)) = true
      ↔ ((st.updateResult r').resultsOf r.executionId ≠ []
        ∧ ∀ x ∈ (st.updateResult r').resultsOf r.executionId,
          ¬(x.status = .pending ∨ x.status = .running)) := by
    rw [Bool.and_eq_true, List.all_eq_true, decide_eq_true_iff]
    constructor
    · intro hpair
      refine ⟨List.ne_nil_of_length_pos hpair.2, ?_⟩
      intro x hx
      have hx' := hpair.1 x hx
      simp only [Bool.not_eq_true', Bool.or_eq_false_iff, beq_eq_false_iff_ne,
        ne_eq] at hx'
      exact fun hc => hc.elim hx'.1 hx'.2
    · intro hpair
      refine ⟨?_, List.length_pos_of_ne_nil hpair.1⟩
      intro x hx
      have hx' := hpair.2 x hx
      simp only [Bool.not_eq_true', Bool.or_eq_false_iff, beq_eq_false_iff_ne,
        ne_eq]
      exact ⟨fun hc => hx' (Or.inl hc), fun hc => hx' (Or.inr hc)⟩
  unfold checkAndCompleteExecution
  simp only [Bool.not_true, Bool.false_eq_true, if_false, Bool.not_false,
    if_true]
  by_cases hd : (((st.updateResult r').resultsOf r.executionId).all
        (fun x => !(x.status == .pending || x.status == .running))
        && decide (((st.updateResult r').resultsOf r.executionId).length > 0)) = true
  · rw [if_pos hd]
    unfold CompleteExecution
    rw [hexu]
    simp only
    refine ⟨by trivial, ?_, by trivial⟩
    constructor
    · intro _
      exact findExecution_updateExecution_eq _ r.executionId ex _ (by rfl) hexu
    · intro _
      exact hcond.mp hd
  · rw [if_neg hd]
    refine ⟨by trivial, ?_, by trivial⟩
    constructor
    · intro hc
      exact absurd (hcond.mpr hc) hd
    · intro hc
      rw [hexu] at hc
      injection hc with hc
      have hcs := congrArg Execution.status hc
      rw [hrun] at hcs
      exact ExecutionStatus.noConfusion hcs

/-- C2 witness: the theorem applied to a concrete running execution
whose last pending result is updated to a terminal status. -/
theorem c2_witness :
    (UpdateResultByID runningStore2 "r2" .detected "d" 0 9 true).1 = .ok ()
    ∧ ((UpdateResultByID runningStore2 "r2" .detected "d" 0 9
        true).2).executionStatus "e1" = some .completed := by
  have h := c2_auto_complete_iff runningStore2 "r2" .detected "d" 0 9
    (freshResult "r2")
    { freshResult "r2" with
      status := .detected,
      output := "d",
      exitCode := 0,
      completedAt := some 9 }
    (mkExecution .running)
    (runningStore2.updateResult { freshResult "r2" with
      status := .detected,
      output := "d",
      exitCode := 0,
      completedAt := some 9 })
    ((runningStore2.updateResult { freshResult "r2" with
      status := .detected,
      output := "d",
      exitCode := 0,
      completedAt := some 9 }).resultsOf "e1")
    rfl rfl rfl rfl rfl rfl
  refine ⟨h.1, ?_⟩
  have h2 := h.2.1.mp (by decide)
  unfold Store.executionStatus
  rw [show (UpdateResultByID runningStore2 "r2" ResultStatus.detected "d" 0 9
      true).2.findExecution "e1"
    = (UpdateResultByID runningStore2 "r2" ResultStatus.detected "d" 0 9
      true).2.findExecution (freshResult "r2").executionId from rfl, h2]
  rfl


/-- C4 (amended).  CancelExecution succeeds only when the Execution's
status is Running or Pending (the entity has an ExecutionPending status
that the guard also accepts, contrary to the claim's Running-only
wording); otherwise it returns an InvalidState error leaving the store
unchanged.  On success every Result of the execution still Pending or
Running is transitioned to Skipped with completedAt = now, every
already-terminal Result is untouched, the Execution becomes Cancelled,
and no Result of the execution remains Pending or Running. -/
theorem c4_amended_cancel (st : Store) (i : String) (now : Time)
    (pOk : String → Bool) (ex : Execution)
    (hfind : st.findExecution i = some ex) :
    ((ex.status ≠ .running ∧ ex.status ≠ .pending) →
      CancelExecution st i now pOk = (.error .invalidState, st))
    ∧ ((ex.status = .running ∨ ex.status = .pending) →
      (st.results.map ExecutionResult.id).Nodup →
      (∀ r ∈ st.resultsOf i, pOk r.id = true) →
      (CancelExecution st i now pOk
        = (.ok (), ({ st with results := st.results.map (fun (x : ExecutionResult) =>
            if (x.executionId == i
                && (x.status == ResultStatus.pending || x.status == ResultStatus.running)) = true
            then skipResult now x else x) }).updateExecution
            { ex with status := .cancelled, completedAt := some now })
      ∧ ((CancelExecution st i now pOk).2).executionStatus i = some .cancelled
      ∧ ∀ x ∈ ((CancelExecution st i now pOk).2).results,
          x.executionId = i → ¬(x.status = .pending ∨ x.status = .running))) := by
  constructor
  · intro hne
    unfold CancelExecution
    rw [hfind]
    simp only
    rw [if_pos (by
      rw [Bool.and_eq_true, Bool.not_eq_true', Bool.not_eq_true']
      exact ⟨beq_eq_false_iff_ne.mpr hne.1, beq_eq_false_iff_ne.mpr hne.2⟩)]
  · intro hrun hnodup hok
    have hguard : ¬((!(ex.status == ExecutionStatus.running) && !(ex.status == ExecutionStatus.pending)) = true) := by
      intro hc
      rw [Bool.and_eq_true, Bool.not_eq_true', Bool.not_eq_true'] at hc
      rcases hrun with h | h
      · exact absurd (beq_eq_false_iff_ne.mp hc.1) (fun hn => hn h)
      · exact absurd (beq_eq_false_iff_ne.mp hc.2) (fun hn => hn h)
    have hloop := cancelLoop_resultsOf st i now pOk hnodup
      (fun r hr _ => hok r hr)
    have hmain : CancelExecution st i now pOk
        = (.ok (), ({ st with results := st.results.map (fun (x : ExecutionResult) =>
            if (x.executionId == i
                && (x.status == ResultStatus.pending || x.status == ResultStatus.running)) = true
            then skipResult now x else x) }).updateExecution
            { ex with status := .cancelled, completedAt := some now }) := by
      unfold CancelExecution
      rw [hfind]
      simp only
      rw [if_neg hguard, hloop]
    refine ⟨hmain, ?_, ?_⟩
    · rw [hmain]
      unfold Store.executionStatus
      have hfindM : ({ st with results := st.results.map (fun x =>
          if (x.executionId == i
              && (x.status == ResultStatus.pending || x.status == ResultStatus.running)) = true
          then skipResult now x else x) } : Store).findExecution i = some ex := hfind
      rw [findExecution_updateExecution_eq _ i ex _ (by rfl) hfindM]
      rfl
    · intro x hx hxid
      rw [hmain] at hx
      have hx' : x ∈ st.results.map (fun y =>
          if (y.executionId == i
              && (y.status == ResultStatus.pending || y.status == ResultStatus.running)) = true
          then skipResult now y else y) := hx
      rw [List.mem_map] at hx'
      obtain ⟨y, hy, hyx⟩ := hx'
      by_cases hc : ((y.executionId == i
          && (y.status == ResultStatus.pending || y.status == ResultStatus.running))) = true
      · rw [if_pos hc] at hyx
        rw [← hyx]
        intro hcon
        rcases hcon with hcon | hcon <;> exact ResultStatus.noConfusion hcon
      · rw [if_neg hc] at hyx
        subst hyx
        rw [Bool.and_eq_true] at hc
        intro hcon
        apply hc
        refine ⟨by simpa using hxid, ?_⟩
        rcases hcon with hcon | hcon
        · rw [hcon]
          rfl
        · rw [hcon]
          rfl

/-- C4 counterexample: an Execution whose status is Pending (not
Running) is cancelled successfully, contradicting the claim that
CancelExecution succeeds only when the status is still Running and
otherwise returns an InvalidState error. -/
theorem c4_counterexample :
    pendingExecStore.executionStatus "e1" = some .pending
    ∧ (CancelExecution pendingExecStore "e1" 9 alwaysOk).1 = .ok ()
    ∧ ((CancelExecution pendingExecStore "e1" 9
        alwaysOk).2).executionStatus "e1" = some .cancelled := by
  exact ⟨rfl, rfl, rfl⟩

/-- C4 witness: the amended theorem applied to a concrete running
execution with one terminal and one pending result. -/
theorem c4_witness :
    CancelExecution runningStore2 "e1" 9 alwaysOk
      = (.ok (), ({ runningStore2 with
          results := runningStore2.results.map (fun (x : ExecutionResult) =>
            if (x.executionId == "e1"
                && (x.status == ResultStatus.pending || x.status == ResultStatus.running)) = true
            then skipResult 9 x else x) }).updateExecution
          { mkExecution .running with
            status := .cancelled,
            completedAt := some 9 })
    ∧ ((CancelExecution runningStore2 "e1" 9
        alwaysOk).2).executionStatus "e1" = some .cancelled := by
  have h := (c4_amended_cancel runningStore2 "e1" 9 alwaysOk
    (mkExecution .running) rfl).2 (Or.inl rfl) (by decide) (fun r _ => rfl)
  exact ⟨h.1, h.2.1⟩

/-- C10.  CancelExecution is not atomic in its Result updates: when
persisting the Skipped transition fails at some Result partway through
the snapshot, the call returns an error, the Execution's status is still
Running, and the Results updated before the failure are persisted as
Skipped with completedAt set, while the failing Result and the rest are
unchanged. -/
theorem c10_cancel_partial_failure (st : Store) (i : String) (now : Time)
    (pOk : String → Bool) (ex : Execution)
    (pre post : List ExecutionResult) (r0 : ExecutionResult)
    (hfind : st.findExecution i = some ex)
    (hrun : ex.status = .running)
    (hnodup : (st.results.map ExecutionResult.id).Nodup)
    (hsplit : st.resultsOf i = pre ++ r0 :: post)
    (hpre : ∀ p ∈ pre,
      (p.status == ResultStatus.pending || p.status == ResultStatus.running) = true → pOk p.id = true)
    (hr0pr : (r0.status == ResultStatus.pending || r0.status == ResultStatus.running) = true)
    (hr0fail : pOk r0.id = false) :
    CancelExecution st i now pOk
      = (.error .persistenceFailure,
          { st with results := st.results.map (updFold now pre) })
    ∧ ((CancelExecution st i now pOk).2).executionStatus i = some .running
    ∧ (∀ p ∈ pre, (p.status == ResultStatus.pending || p.status == ResultStatus.running) = true →
        ((CancelExecution st i now pOk).2).findResult p.id
          = some (skipResult now p))
    ∧ ((CancelExecution st i now pOk).2).findResult r0.id = some r0 := by
  have hguard : ¬((!(ex.status == ExecutionStatus.running) && !(ex.status == ExecutionStatus.pending)) = true) := by
    intro hc
    rw [Bool.and_eq_true, Bool.not_eq_true', Bool.not_eq_true'] at hc
    exact absurd (beq_eq_false_iff_ne.mp hc.1) (fun hn => hn hrun)
  have hloop := cancelLoop_fail pOk now r0 hr0pr hr0fail pre post st hpre
  have hmain : CancelExecution st i now pOk
      = (.error .persistenceFailure,
          { st with results := st.results.map (updFold now pre) }) := by
    unfold CancelExecution
    rw [hfind]
    simp only
    rw [if_neg hguard, hsplit, hloop]
  have hprepw : pre.Pairwise (fun a b => ¬(a.id = b.id)) := by
    have hfilt : (st.resultsOf i).Pairwise (fun a b => ¬(a.id = b.id)) :=
      (results_pairwise_of_nodup st hnodup).sublist (List.filter_sublist _)
    rw [hsplit] at hfilt
    exact (List.pairwise_append.mp hfilt).1
  have hpremem : ∀ p ∈ pre, p ∈ st.results := by
    intro p hp
    have : p ∈ st.resultsOf i := by
      rw [hsplit]
      exact List.mem_append_left _ hp
    exact List.mem_of_mem_filter this
  refine ⟨hmain, ?_, ?_, ?_⟩
  · rw [hmain]
    unfold Store.executionStatus Store.findExecution
    show (st.executions.find? (fun e => e.id == i)).map (fun e => e.status)
      = some .running
    rw [show st.executions.find? (fun e => e.id == i) = some ex from hfind,
      Option.map_some', hrun]
  · intro p hp hppr
    rw [hmain]
    unfold Store.findResult
    show (st.results.map (updFold now pre)).find? (fun x => x.id == p.id)
      = some (skipResult now p)
    rw [find?_map_id_preserving (updFold now pre) (fun x => updFold_id now pre x)
      p.id st.results]
    rw [find?_id_of_mem hnodup p (hpremem p hp)]
    rw [Option.map_some']
    have hinj : ∀ r ∈ pre, r.id = p.id → r = p := by
      intro q hq hqid
      exact results_inj_of_nodup st hnodup q (hpremem q hq) p (hpremem p hp) hqid
    rw [updFold_mem now p pre hprepw hinj, if_pos ⟨hp, hppr⟩]
  · rw [hmain]
    unfold Store.findResult
    show (st.results.map (updFold now pre)).find? (fun x => x.id == r0.id)
      = some r0
    have hr0mem : r0 ∈ st.results := by
      have : r0 ∈ st.resultsOf i := by
        rw [hsplit]
        exact List.mem_append_right _ (List.mem_cons_self r0 post)
      exact List.mem_of_mem_filter this
    rw [find?_map_id_preserving (updFold now pre) (fun x => updFold_id now pre x)
      r0.id st.results]
    rw [find?_id_of_mem hnodup r0 hr0mem]
    rw [Option.map_some']
    have hr0pre : r0 ∉ pre := by
      intro hc
      have hfilt : (st.resultsOf i).Pairwise (fun a b => ¬(a.id = b.id)) :=
        (results_pairwise_of_nodup st hnodup).sublist (List.filter_sublist _)
      rw [hsplit] at hfilt
      exact (List.pairwise_append.mp hfilt).2.2 r0 hc r0
        (List.mem_cons_self r0 post) rfl
    have hinj : ∀ r ∈ pre, r.id = r0.id → r = r0 := by
      intro q hq hqid
      exact results_inj_of_nodup st hnodup q (hpremem q hq) r0 hr0mem hqid
    rw [updFold_mem now r0 pre hprepw hinj,
      if_neg (fun hc => hr0pre hc.1)]


/-- C10 witness: the theorem applied to a concrete store where the
persist of the second pending result fails: the first result is left
Skipped, the second unchanged, and the execution is still Running. -/
theorem c10_witness :
    (CancelExecution partialStore "e1" 9 failOnR2).1
      = .error .persistenceFailure
    ∧ ((CancelExecution partialStore "e1" 9
        failOnR2).2).executionStatus "e1" = some .running
    ∧ ((CancelExecution partialStore "e1" 9 failOnR2).2).findResult "r1"
      = some (skipResult 9 (freshResult "r1"))
    ∧ ((CancelExecution partialStore "e1" 9 failOnR2).2).findResult "r2"
      = some (freshResult "r2") := by
  have h := c10_cancel_partial_failure partialStore "e1" 9 failOnR2
    (mkExecution .running) [freshResult "r1"] [] (freshResult "r2")
    rfl rfl (by decide) rfl (by decide) rfl rfl
  refine ⟨?_, h.2.1, ?_, ?_⟩
  · rw [h.1]
  · exact h.2.2.1 (freshResult "r1") (List.mem_singleton.mpr rfl) rfl
  · exact h.2.2.2


lemma validateAgents_error (agents : List Agent) :
    ∀ paws : List String,
      (∃ paw ∈ paws, pawMap agents paw = none
        ∨ ∃ a, pawMap agents paw = some a ∧ ¬(a.status = .online)) →
      ∃ e, validateAgents agents paws = .error e := by
  intro paws
  induction paws with
  | nil =>
    rintro ⟨paw, hmem, _⟩
    exact absurd hmem (List.not_mem_nil paw)
  | cons p rest ih =>
    rintro ⟨paw, hmem, hbad⟩
    unfold validateAgents
    cases hp : pawMap agents p with
    | none => exact ⟨.notFound, rfl⟩
    | some a =>
      simp only
      by_cases hstat : (a.status == .online) = true
      · rw [if_neg (by rw [hstat]; intro hc; exact Bool.noConfusion hc)]
        rcases List.mem_cons.mp hmem with hpp | hmemrest
        · subst hpp
          rcases hbad with hnone | ⟨a2, ha2, ha2off⟩
          · rw [hp] at hnone
            exact absurd hnone (Option.noConfusion)
          · rw [hp] at ha2
            injection ha2 with ha2
            subst ha2
            exact absurd (by simpa using hstat) ha2off
        · exact ih ⟨paw, hmemrest, hbad⟩
      · refine ⟨.invalidState, ?_⟩
        rw [if_pos (by rw [Bool.not_eq_true] at hstat; rw [hstat]; rfl)]

/-- C5.  StartExecution validates, before creating any Execution or
Result row, that every requested paw resolves to a known online Agent:
if any requested paw is missing from the loaded agents or resolves to an
agent that is not online, the whole call returns an error and the store
is unchanged (no Execution or Result is persisted). -/
theorem c5_validation_no_side_effects (env : Env) (st : Store)
    (scenarioID : String) (agentPaws : List String) (safeMode : Bool)
    (now : Time) (executionID : String) (resultID : Nat → String)
    (h : ∃ paw ∈ agentPaws,
      pawMap (env.findByPaws agentPaws) paw = none
      ∨ ∃ a, pawMap (env.findByPaws agentPaws) paw = some a
          ∧ ¬(a.status = .online)) :
    (∃ e, (StartExecution env st scenarioID agentPaws safeMode now
        executionID resultID).1 = .error e)
    ∧ (StartExecution env st scenarioID agentPaws safeMode now
        executionID resultID).2 = st := by
  unfold StartExecution
  cases hsc : env.scenarios.find? (fun sc => sc.id == scenarioID) with
  | none => exact ⟨⟨.notFound, rfl⟩, rfl⟩
  | some scenario =>
    simp only
    obtain ⟨e, he⟩ := validateAgents_error (env.findByPaws agentPaws) agentPaws h
    rw [he]
    exact ⟨⟨e, rfl⟩, rfl⟩

/-- C5 witness: the theorem applied to a request naming one online and
one offline agent; the call errors and the store is untouched. -/
theorem c5_witness :
    (∃ e, (StartExecution demoEnv runningStore "s1" ["a1", "a2"] false 0
        "e9" (fun _ => "rX")).1 = .error e)
    ∧ (StartExecution demoEnv runningStore "s1" ["a1", "a2"] false 0
        "e9" (fun _ => "rX")).2 = runningStore := by
  exact c5_validation_no_side_effects demoEnv runningStore "s1" ["a1", "a2"]
    false 0 "e9" (fun _ => "rX")
    ⟨"a2", by decide, Or.inr ⟨demoAgentOff, rfl, by decide⟩⟩


/-- C6.  For a fixed input, PlanExecution produces exactly the
specification-side task list: phases in declared order, within a phase
techniques in declared order, within a technique the target agents in
given order; and the Order field is a single global counter never reset
per phase, so the k-th task of the plan has Order k. -/
theorem c6_plan_order_deterministic (catalog : List Technique)
    (scenario : Scenario) (targetAgents : List Agent) (safeMode : Bool)
    (plan : ExecutionPlan)
    (h : PlanExecution catalog scenario targetAgents safeMode = .ok plan) :
    plan.tasks = specPlannedTasks catalog scenario targetAgents safeMode
    ∧ ∀ (k : Nat) (hk : k < plan.tasks.length),
        (plan.tasks.get ⟨k, hk⟩).order = k := by
  rw [planExecution_eq] at h
  by_cases hc : (specPlannedPairs catalog scenario targetAgents safeMode).length = 0
  · rw [if_pos hc] at h
    exact absurd h (by intro hcon; exact Except.noConfusion hcon)
  · rw [if_neg hc] at h
    injection h with h
    subst h
    refine ⟨rfl, ?_⟩
    intro k hk
    show ((specTasksFrom 0
      (specPlannedPairs catalog scenario targetAgents safeMode)).get ⟨k, _⟩).order = k
    rw [specTasksFrom_get _ 0 k _]
    omega

/-- C6 witness: the theorem applied to the demo scenario; the second
task of the two-task plan has Order 1. -/
theorem c6_witness :
    demoPlan.tasks = specPlannedTasks demoEnv.catalog demoScenario [demoAgentOn] false
    ∧ (demoPlan.tasks.get ⟨1, by decide⟩).order = 1 := by
  have h := c6_plan_order_deterministic demoEnv.catalog demoScenario
    [demoAgentOn] false demoPlan (by rfl)
  exact ⟨h.1, h.2 1 (by decide)⟩


lemma techPairs_prune (catalog : List Technique) (agents : List Agent)
    (safeMode : Bool) (phaseName : String) :
    ∀ techIDs : List String,
      techPairs catalog agents safeMode phaseName
        (techIDs.filter (fun techID => (findTechnique catalog techID).isSome))
      = techPairs catalog agents safeMode phaseName techIDs := by
  intro techIDs
  induction techIDs with
  | nil => rfl
  | cons techID rest ih =>
    rw [List.filter_cons]
    cases hfind : findTechnique catalog techID with
    | none =>
      simp only [hfind, Option.isSome_none, Bool.false_eq_true, if_false]
      rw [ih, techPairs_cons, hfind]
      rfl
    | some technique =>
      simp only [hfind, Option.isSome_some, if_true]
      rw [techPairs_cons, techPairs_cons, ih]

lemma phasePairs_prune (catalog : List Technique) (agents : List Agent)
    (safeMode : Bool) :
    ∀ phases : List Phase,
      phasePairs catalog agents safeMode (phases.map (prunePhase catalog))
        = phasePairs catalog agents safeMode phases := by
  intro phases
  induction phases with
  | nil => rfl
  | cons phase rest ih =>
    rw [List.map_cons, phasePairs_cons, phasePairs_cons, ih]
    show techPairs catalog agents safeMode phase.name
        (phase.techniques.filter (fun techID => (findTechnique catalog techID).isSome))
      ++ _ = _
    rw [techPairs_prune]

/-- C8.  PlanExecution fails if and only if the resulting plan would
contain zero tasks, and the only error it returns is NoExecutableTasks;
a technique id that is not found in the catalog is skipped, so planning
over a scenario equals planning over the scenario with the unknown
technique ids removed (a lookup failure is never by itself a planning
error). -/
theorem c8_plan_error_iff_empty (catalog : List Technique)
    (scenario : Scenario) (targetAgents : List Agent) (safeMode : Bool) :
    (PlanExecution catalog scenario targetAgents safeMode
        = .error .noExecutableTasks
      ↔ specPlannedTasks catalog scenario targetAgents safeMode = [])
    ∧ (∀ e, PlanExecution catalog scenario targetAgents safeMode = .error e
        → e = .noExecutableTasks)
    ∧ PlanExecution catalog scenario targetAgents safeMode
        = PlanExecution catalog (pruneUnknown catalog scenario)
            targetAgents safeMode := by
  have hpr : specPlannedPairs catalog (pruneUnknown catalog scenario)
      targetAgents safeMode
      = specPlannedPairs catalog scenario targetAgents safeMode := by
    show phasePairs catalog targetAgents safeMode
        (scenario.phases.map (prunePhase catalog)) = _
    rw [phasePairs_prune]
    rfl
  have htasks : specPlannedTasks catalog (pruneUnknown catalog scenario)
      targetAgents safeMode
      = specPlannedTasks catalog scenario targetAgents safeMode := by
    unfold specPlannedTasks
    rw [hpr]
  refine ⟨?_, ?_, ?_⟩
  · rw [planExecution_eq]
    by_cases hc : (specPlannedPairs catalog scenario targetAgents safeMode).length = 0
    · rw [if_pos hc]
      constructor
      · intro _
        unfold specPlannedTasks
        rw [List.length_eq_zero.mp hc]
        rfl
      · intro _
        rfl
    · rw [if_neg hc]
      constructor
      · intro hcon
        exact absurd hcon (by intro hcon2; exact Except.noConfusion hcon2)
      · intro hcon
        exfalso
        apply hc
        rw [← specTasksFrom_length
          (specPlannedPairs catalog scenario targetAgents safeMode) 0]
        show (specPlannedTasks catalog scenario targetAgents safeMode).length = 0
        rw [hcon]
        rfl
  · intro e he
    rw [planExecution_eq] at he
    by_cases hc : (specPlannedPairs catalog scenario targetAgents safeMode).length = 0
    · rw [if_pos hc] at he
      injection he with he
      exact he.symm
    · rw [if_neg hc] at he
      exact absurd he (by intro hcon; exact Except.noConfusion hcon)
  · rw [planExecution_eq, planExecution_eq, hpr, htasks]

/-- C8 witness: the theorem applied to a scenario referencing an unknown
technique id (plan unchanged by pruning it) and to an empty catalog
(planning fails with NoExecutableTasks precisely because the task list
is empty). -/
theorem c8_witness :
    PlanExecution demoEnv.catalog demoScenarioUnknown [demoAgentOn] false
      = PlanExecution demoEnv.catalog
          (pruneUnknown demoEnv.catalog demoScenarioUnknown) [demoAgentOn] false
    ∧ PlanExecution [] demoScenario [demoAgentOn] false
      = .error .noExecutableTasks := by
  refine ⟨(c8_plan_error_iff_empty demoEnv.catalog demoScenarioUnknown
    [demoAgentOn] false).2.2, ?_⟩
  exact (c8_plan_error_iff_empty [] demoScenario [demoAgentOn] false).1.mpr rfl


/-- C7.  When safeMode is true, no task of the produced plan references a
technique whose isSafe flag is false; and every pair of a catalogued
isSafe technique occurring exactly once in the scenario and a compatible
target agent (unique by paw, with a resolvable executor) appears exactly
once among the planned tasks. -/
theorem c7_safe_mode (catalog : List Technique) (scenario : Scenario)
    (targetAgents : List Agent) (plan : ExecutionPlan)
    (h : PlanExecution catalog scenario targetAgents true = .ok plan) :
    (∀ tk ∈ plan.tasks, ∀ t, findTechnique catalog tk.techniqueId = some t →
        t.isSafe = true)
    ∧ (∀ (techID : String) (t : Technique) (a : Agent),
        findTechnique catalog techID = some t →
        t.isSafe = true →
        a ∈ targetAgents →
        (scenario.phases.flatMap (fun phase => phase.techniques)).count techID = 1 →
        (targetAgents.filter (fun b => b.paw == a.paw)).length = 1 →
        a.IsCompatible t = true →
        (t.GetExecutorForPlatform a.platform a.executors).isSome = true →
        plan.tasks.countP
          (fun tk => tk.techniqueId == techID && tk.agentPaw == a.paw) = 1) := by
  rw [planExecution_eq] at h
  by_cases hc : (specPlannedPairs catalog scenario targetAgents true).length = 0
  · rw [if_pos hc] at h
    exact absurd h (by intro hcon; exact Except.noConfusion hcon)
  · rw [if_neg hc] at h
    injection h with h
    subst h
    constructor
    · intro tk htk t hfind
      obtain ⟨p, hp, htid⟩ := mem_specTasksFrom _ 0 htk
      obtain ⟨phase, hph, hp2⟩ := mem_phasePairs hp
      obtain ⟨tid, _, t2, hfind2, hsafe2, hp3⟩ := mem_techPairs hp2
      obtain ⟨a, _, e, _, _, hpe⟩ := mem_agentPairs hp3
      subst hpe
      rw [htid] at hfind
      have ht2 : t = t2 := Option.some.inj (hfind.symm.trans hfind2)
      subst ht2
      cases hval : t.isSafe with
      | true => rfl
      | false =>
        exfalso
        apply hsafe2
        rw [hval]
        rfl
    · intro techID t a hfind hsafe ha hcount hpaw hcomp hexec
      show (specTasksFrom 0
        (phasePairs catalog targetAgents true scenario.phases)).countP _ = 1
      rw [countP_specTasksFrom techID a.paw _ 0,
        countP_phasePairs catalog targetAgents techID a.paw t hfind hsafe,
        hcount, Nat.one_mul]
      have hfil : targetAgents.filter (fun b => b.paw == a.paw) = [a] := by
        have hmem : a ∈ targetAgents.filter (fun b => b.paw == a.paw) :=
          List.mem_filter.mpr ⟨ha, by simp⟩
        obtain ⟨b, hb⟩ := List.length_eq_one.mp hpaw
        rw [hb] at hmem
        rw [hb, List.mem_singleton.mp hmem]
      exact countP_unique_paw a t hcomp hexec targetAgents hfil


/-- C7 witness: the theorem applied to the demo scenario in safe mode;
the safe technique-agent pair is planned exactly once, and the technique
referenced by the planned task is safe. -/
theorem c7_witness :
    demoTech.isSafe = true
    ∧ demoSafePlan.tasks.countP
        (fun tk => tk.techniqueId == "T1" && tk.agentPaw == "a1") = 1 := by
  have h := c7_safe_mode demoEnv.catalog demoScenario [demoAgentOn]
    demoSafePlan (by rfl)
  refine ⟨?_, ?_⟩
  · exact h.1 (demoSafePlan.tasks.get ⟨0, by decide⟩)
      (List.get_mem demoSafePlan.tasks 0 (by decide)) demoTech rfl
  · exact h.2 "T1" demoTech demoAgentOn rfl rfl (by decide) (by decide)
      (by decide) (by decide) (by decide)


lemma searchCron_sound (c : CronSpec) :
    ∀ (fuel t u : Nat),
      searchCron c fuel t = some u →
      cronMatches c u = true ∧ t < u
        ∧ ∀ v, t < v → v < u → cronMatches c v = false := by
  intro fuel
  induction fuel with
  | zero =>
    intro t u h
    exact absurd h (by intro hc; exact Option.noConfusion hc)
  | succ fuel ih =>
    intro t u h
    unfold searchCron at h
    by_cases hm : cronMatches c (t + 1) = true
    · rw [if_pos hm] at h
      injection h with h
      subst h
      exact ⟨hm, by omega, fun v hv1 hv2 => absurd hv1 (by omega)⟩
    · rw [if_neg hm] at h
      obtain ⟨h1, h2, h3⟩ := ih (t + 1) u h
      refine ⟨h1, by omega, ?_⟩
      intro v hv1 hv2
      by_cases hv : v = t + 1
      · subst hv
        rw [Bool.not_eq_true] at hm
        exact hm
      · exact h3 v (by omega) hv2

/-- C9.  CalculateNextRun (modelled from the spec; the Schedule entity
file is absent from the sources, its behaviour pinned by the unit
tests): a Paused or Disabled schedule yields none; for an Active
schedule, hourly/daily/weekly add one hour / one calendar day / seven
days, monthly adds one calendar month; once yields none when lastRunAt
is set, the stored nextRunAt when set, else now; cron yields none on an
empty or unparseable expression, and any returned instant matches the
expression, is strictly after now, and is the earliest such instant; an
unknown frequency yields none. -/
theorem c9_calculate_next_run (s : Schedule) (now : Time) :
    ((s.status = "paused" ∨ s.status = "disabled") →
      s.CalculateNextRun now = none)
    ∧ (s.status = "active" →
      ((s.frequency = "hourly" → s.CalculateNextRun now = some (now + 60))
      ∧ (s.frequency = "daily" → s.CalculateNextRun now = some (now + 1440))
      ∧ (s.frequency = "weekly" → s.CalculateNextRun now = some (now + 7 * 1440))
      ∧ (s.frequency = "monthly" →
          s.CalculateNextRun now = some (addOneCalendarMonth now))
      ∧ (s.frequency = "once" →
          (s.lastRunAt ≠ none → s.CalculateNextRun now = none)
          ∧ (s.lastRunAt = none → ∀ t, s.nextRunAt = some t →
              s.CalculateNextRun now = some t)
          ∧ (s.lastRunAt = none → s.nextRunAt = none →
              s.CalculateNextRun now = some now))
      ∧ (s.frequency = "cron" →
          (s.cronExpr = "" → s.CalculateNextRun now = none)
          ∧ (parseCron s.cronExpr = none → s.CalculateNextRun now = none)
          ∧ (∀ c u, parseCron s.cronExpr = some c →
              s.CalculateNextRun now = some u →
              cronMatches c u = true ∧ now < u
                ∧ ∀ v, now < v → v < u → cronMatches c v = false))
      ∧ (s.frequency ≠ "once" → s.frequency ≠ "hourly" →
          s.frequency ≠ "daily" → s.frequency ≠ "weekly" →
          s.frequency ≠ "monthly" → s.frequency ≠ "cron" →
          s.CalculateNextRun now = none))) := by
  constructor
  · intro hst
    rcases hst with hst | hst <;>
      simp [Schedule.CalculateNextRun, hst]
  · intro hst
    refine ⟨?_, ?_, ?_, ?_, ?_, ?_, ?_⟩
    · intro hf
      simp [Schedule.CalculateNextRun, hst, hf]
    · intro hf
      simp [Schedule.CalculateNextRun, hst, hf]
    · intro hf
      simp [Schedule.CalculateNextRun, hst, hf]
    · intro hf
      simp [Schedule.CalculateNextRun, hst, hf]
    · intro hf
      refine ⟨?_, ?_, ?_⟩
      · intro hlast
        cases hl : s.lastRunAt with
        | none => exact absurd hl hlast
        | some t0 => simp [Schedule.CalculateNextRun, hst, hf, hl]
      · intro hlast t hnext
        simp [Schedule.CalculateNextRun, hst, hf, hlast, hnext]
      · intro hlast hnext
        simp [Schedule.CalculateNextRun, hst, hf, hlast, hnext]
    · intro hf
      refine ⟨?_, ?_, ?_⟩
      · intro hexpr
        simp [Schedule.CalculateNextRun, hst, hf, hexpr]
      · intro hparse
        by_cases hexpr : s.cronExpr = ""
        · simp [Schedule.CalculateNextRun, hst, hf, hexpr]
        · simp [Schedule.CalculateNextRun, hst, hf, hexpr, hparse]
      · intro c u hparse hrun
        by_cases hexpr : s.cronExpr = ""
        · rw [show s.CalculateNextRun now = none by
            simp [Schedule.CalculateNextRun, hst, hf, hexpr]] at hrun
          exact absurd hrun (by intro hc; exact Option.noConfusion hc)
        · rw [show s.CalculateNextRun now = searchCron c cronSearchFuel now by
            simp [Schedule.CalculateNextRun, hst, hf, hexpr, hparse]] at hrun
          exact searchCron_sound c cronSearchFuel now u hrun
    · intro h1 h2 h3 h4 h5 h6
      simp [Schedule.CalculateNextRun, hst,
        beq_eq_false_iff_ne.mpr h1, beq_eq_false_iff_ne.mpr h2,
        beq_eq_false_iff_ne.mpr h3, beq_eq_false_iff_ne.mpr h4,
        beq_eq_false_iff_ne.mpr h5, beq_eq_false_iff_ne.mpr h6]


/-- C9 witness: the theorem applied to concrete schedules at
2024-01-15T10:00 UTC (minute 20760): paused yields none, daily adds one
calendar day, monthly lands on 2024-02-15T10:00, a once schedule that
already ran yields none, and the hourly cron expression fires next at
11:00, strictly after now. -/
theorem c9_witness :
    pausedSched.CalculateNextRun 20760 = none
    ∧ dailySched.CalculateNextRun 20760 = some 22200
    ∧ monthlySched.CalculateNextRun 20760 = some 65400
    ∧ onceSchedDone.CalculateNextRun 20760 = none
    ∧ cronSched.CalculateNextRun 20760 = some 20820
    ∧ 20760 < 20820 := by
  have hp := (c9_calculate_next_run pausedSched 20760).1 (Or.inl rfl)
  have hd := ((c9_calculate_next_run dailySched 20760).2 rfl).2.1 rfl
  have hmo := ((c9_calculate_next_run monthlySched 20760).2 rfl).2.2.2.1 rfl
  have ho := (((c9_calculate_next_run onceSchedDone 20760).2 rfl).2.2.2.2.1
    rfl).1 (by intro hc; exact Option.noConfusion hc)
  have hcr := (((c9_calculate_next_run cronSched 20760).2 rfl).2.2.2.2.2.1
    rfl).2.2
  have hrun : cronSched.CalculateNextRun 20760 = some 20820 := by decide
  have hparse : parseCron cronSched.cronExpr
      = some { minute := [0], hour := List.range' 0 24, dom := List.range' 1 31,
               month := List.range' 1 12, dow := List.range' 0 7 } := by decide
  refine ⟨hp, ?_, ?_, ho, hrun, ?_⟩
  · rw [hd]
  · rw [hmo]
    rfl
  · exact (hcr _ 20820 hparse hrun).2.1

end AutoStrike
